import Mathlib

/-!
# s3dl: a verification development

A shallow embedding of `main.go` (the S3 bulk downloader `s3dl`) together with
theorems about it.

* Part 1 embeds the copy loop of `download` (lines 93-109).
* Part 2 embeds `path.Dir`, used by `download` at line 82.
* Part 3 embeds one iteration of the loop body of `download` (lines 70-113)
  over a filesystem that maps a path to its bytes.
* Part 4 embeds the whole program, `main` and the `download` goroutines, as a
  labelled transition system: one label per scheduling decision, carrying the
  answer of the outside world (S3, the filesystem) to the call the step makes.
  The local files a run leaves are read off the events of the run.
-/

namespace S3dl

/-! ## Part 1: the copy loop -/

/-- An object key, which is also the local path of the file (line 88). -/
abbrev Key := String

/-- One byte of an object body. -/
abbrev Byte := Fin 256

/-- The error returned by `resp.Body.Read`: `nil`, `io.EOF`, or anything else. -/
inductive ReadErr where
  | nil
  | eof
  | other
deriving DecidableEq

/-- The result `(n, err)` of one `resp.Body.Read(buf)` together with the `n`
bytes the call stored at the front of `buf`; `n` is `chunk.length`. -/
structure ReadResult where
  chunk : List Byte
  err : ReadErr
deriving DecidableEq

/-- The length of the buffer: `buf := make([]byte, 1024)` (line 93). -/
def bufSize : Nat := 1024

/-- What one iteration of the copy loop does after `Read` has returned. -/
inductive AfterRead where
  | panic
  | stop
  | write (chunk : List Byte)
deriving DecidableEq

/-- Lines 97-106 of one iteration: a non-EOF error panics (97-99), `n == 0`
breaks out of the loop (101-103), otherwise `buf[:n]` is handed to `file.Write`
(106).  Slicing `buf[:n]` with `n` beyond the capacity 1024 of `buf` is a
run-time panic in Go. -/
def afterRead (r : ReadResult) : AfterRead :=
  if r.err = ReadErr.other then AfterRead.panic
  else if r.chunk.length = 0 then AfterRead.stop
  else if bufSize < r.chunk.length then AfterRead.panic
  else AfterRead.write r.chunk

/-- How the copy loop ended: `done` is the `break` of line 102, `panicked` is
one of the `panic(err)` calls (lines 98 and 107) or the slicing panic. -/
inductive LoopEnd where
  | done
  | panicked
deriving DecidableEq

/-- The outcome of the copy loop: the successive arguments of the calls of
`file.Write` that succeeded, in order, and how the loop ended. -/
structure CopyResult where
  writes : List (List Byte)
  fin : LoopEnd
deriving DecidableEq

/-- The copy loop `for { ... }` of lines 94-109.  The body is given as the list
of results of its successive `Read` calls; once the list is used up `Read`
returns `(0, io.EOF)`.  `writeOk i` tells whether the `i`-th call of
`file.Write` (counted from `i`) succeeds. -/
def copyLoop (writeOk : Nat → Bool) : Nat → List ReadResult → CopyResult
  | _, [] => ⟨[], LoopEnd.done⟩
  | i, r :: rest =>
    match afterRead r with
    | AfterRead.panic => ⟨[], LoopEnd.panicked⟩
    | AfterRead.stop => ⟨[], LoopEnd.done⟩
    | AfterRead.write chunk =>
      if writeOk i then
        let next := copyLoop writeOk (i + 1) rest
        ⟨chunk :: next.writes, next.fin⟩
      else ⟨[], LoopEnd.panicked⟩

/-- The bytes a file holds after the given writes were appended to an empty file. -/
def fileBytes (writes : List (List Byte)) : List Byte := writes.flatten

/-- The bytes a body delivers: all the bytes of all its `Read` results. -/
def delivered (reads : List ReadResult) : List Byte :=
  (reads.map ReadResult.chunk).flatten

/-- The reads that come before the first read with `n = 0`. -/
def beforeFirstEmpty (reads : List ReadResult) : List ReadResult :=
  reads.takeWhile (fun r => r.chunk.length != 0)

/-- Every write succeeds. -/
def allWritesOk : Nat → Bool := fun _ => true


/-- A body of three reads: two bytes, then one byte together with `io.EOF`,
then `(0, io.EOF)`. -/
def sampleReads : List ReadResult :=
  [⟨[104, 105], ReadErr.nil⟩, ⟨[33], ReadErr.eof⟩, ⟨[], ReadErr.eof⟩]

/-- A body whose first `Read` returns `(0, nil)`, which the `io.Reader`
contract allows, before it returns the five bytes of "hello" and then
`(0, io.EOF)`. -/
def stalledReads : List ReadResult :=
  [⟨[], ReadErr.nil⟩, ⟨[104, 101, 108, 108, 111], ReadErr.nil⟩, ⟨[], ReadErr.eof⟩]

/-- A body of 1500 bytes: a full buffer of 1024 bytes, then 476 bytes, then
`(0, io.EOF)`. -/
def largeReads : List ReadResult :=
  [⟨List.replicate 1024 7, ReadErr.nil⟩, ⟨List.replicate 476 9, ReadErr.nil⟩,
   ⟨[], ReadErr.eof⟩]

/-! ## Part 2: `path.Dir`

`download` derives the directory of a key with `path.Dir` of the Go standard
library (line 82).  The definitions below follow the library: `Dir` is `Split`
followed by `Clean`.  A path is taken as its list of characters; the library
works on bytes, which makes no difference for the two characters it inspects,
'/' and '.'. -/

/-- One more than `bytealg.LastIndexByteString(path, '/')` in `path.Split`: the
length of the part of the path up to and including its last '/', and 0 when
the path holds no '/'. -/
def lastSlashEnd : List Char → Nat
  | [] => 0
  | c :: rest =>
    match lastSlashEnd rest with
    | 0 => if c = '/' then 1 else 0
    | n + 1 => n + 2

/-- The first result of `path.Split`: `path[:i+1]`. -/
def splitDir (path : List Char) : List Char := path.take (lastSlashEnd path)

/-- The inner loop of the `..` case of `path.Clean`: from position `w`, step
back while `w > dotdot` and `out[w] != '/'`. -/
def backtrack (out : List Char) (dotdot : Nat) : Nat → Nat
  | 0 => 0
  | w + 1 =>
    if dotdot < w + 1 ∧ out[w + 1]? ≠ some '/' then backtrack out dotdot w else w + 1

/-- Whether the input of `path.Clean` at the read position is at its end or at
a '/' (`r == n || path[r] == '/'`). -/
def atElementEnd (rest : List Char) : Bool :=
  match rest with
  | [] => true
  | c :: _ => c == '/'

/-- The default case of the loop of `path.Clean` up to the first copied byte:
add a slash if needed. -/
def withSlash (rooted : Bool) (out : List Char) : List Char :=
  if (rooted ∧ out.length ≠ 1) ∨ (¬ rooted ∧ out.length ≠ 0) then out ++ ['/'] else out

/-- The loop `for r < n` of `path.Clean`.  The arguments are: whether the path
is rooted, whether the loop is inside the copy of a real path element (the
inner `for` of the default case), the unread input `path[r:]`, the output
written so far, and `dotdot`. -/
def cleanLoop (rooted : Bool) : Bool → List Char → List Char → Nat → List Char
  | _, [], out, _ => out
  | true, c :: rest, out, dotdot =>
    if c = '/' then cleanLoop rooted false rest out dotdot
    else cleanLoop rooted true rest (out ++ [c]) dotdot
  | false, c :: rest, out, dotdot =>
    if c = '/' then cleanLoop rooted false rest out dotdot
    else if c = '.' ∧ atElementEnd rest = true then cleanLoop rooted false rest out dotdot
    else
      match rest with
      | [] => cleanLoop rooted true [] (withSlash rooted out ++ [c]) dotdot
      | c2 :: rest2 =>
        if c = '.' ∧ c2 = '.' ∧ atElementEnd rest2 = true then
          if dotdot < out.length then
            cleanLoop rooted false rest2
              (out.take (backtrack out dotdot (out.length - 1))) dotdot
          else if rooted then cleanLoop rooted false rest2 out dotdot
          else
            cleanLoop rooted false rest2
              ((if 0 < out.length then out ++ ['/'] else out) ++ ['.', '.'])
              ((if 0 < out.length then out ++ ['/'] else out) ++ ['.', '.']).length
        else cleanLoop rooted true (c2 :: rest2) (withSlash rooted out ++ [c]) dotdot

/-- The function `path.Clean`. -/
def clean (path : List Char) : List Char :=
  match path with
  | [] => ['.']
  | c :: rest =>
    let out :=
      if c = '/' then cleanLoop true false rest ['/'] 1
      else cleanLoop false false (c :: rest) [] 0
    if out.length = 0 then ['.'] else out

/-- The function `path.Dir`: `Clean` of the directory part given by `Split`. -/
def pathDir (key : Key) : String := String.mk (clean (splitDir key.toList))

/-- The directories `os.MkdirAll(dir)` makes sure exist, outermost first: the
named directory "along with any necessary parents", for a path as `path.Clean`
returns it. -/
def mkdirAllChain : List Char → List Char → List String
  | acc, [] => [String.mk acc]
  | acc, c :: rest =>
    if c = '/' ∧ acc ≠ [] then String.mk acc :: mkdirAllChain (acc ++ [c]) rest
    else mkdirAllChain (acc ++ [c]) rest

/-- The directories `os.MkdirAll(dir, 0766)` makes sure exist. -/
def mkdirAllDirs (dir : String) : List String := mkdirAllChain [] dir.toList

/-! ## Part 3: one iteration of the loop body of `download`

The local filesystem is a map from a path to the bytes of the file there.  The
answers of the outside world to the calls of `download` are gathered in a
`World`.  A task is the loop body of lines 71-112 run for one key. -/

/-- The local files: the bytes stored at each path, `none` where no file is. -/
abbrev FileSystem := String → Option (List Byte)

/-- The outside world as `download` sees it. -/
structure World where
  /-- The answer of `client.GetObject` for a key (line 76): `none` for an error,
  otherwise the body as the results of its successive `Read` calls. -/
  getObject : Key → Option (List ReadResult)
  /-- Whether `os.MkdirAll(dir, 0766)` succeeds (line 83). -/
  mkdirAll : String → Bool
  /-- Whether `os.Create(key)` succeeds (line 88). -/
  create : Key → Bool
  /-- Whether the `i`-th `file.Write` to the file of a key succeeds (line 106). -/
  writeOk : Key → Nat → Bool

/-- A call `download` makes to the filesystem or to S3. -/
inductive Call where
  | getObject (key : Key)
  | mkdirAll (dir : String)
  | create (path : String)
  | write (path : String) (chunk : List Byte)
  | closeFile (path : String)
deriving DecidableEq

/-- How a task or a run ended: `completed` when the loop body reached its end,
`fatal` for `log.Fatal` (exit status 1), `panicked` for `panic` (exit status 2). -/
inductive TaskEnd where
  | completed
  | fatal
  | panicked
deriving DecidableEq

/-- The exit status of the process after a fatal end. -/
def TaskEnd.status : TaskEnd → Nat
  | TaskEnd.completed => 0
  | TaskEnd.fatal => 1
  | TaskEnd.panicked => 2

/-- The filesystem with the file at `path` replaced. -/
def setFile (fs : FileSystem) (path : String) (bytes : List Byte) : FileSystem :=
  fun p => if p = path then some bytes else fs p

/-- The function `os.Create(path)` on the files: the file is created, or
truncated if it exists. -/
def createFile (fs : FileSystem) (path : String) : FileSystem := setFile fs path []

/-- The function `file.Write(chunk)` on the files, for the handle opened at
`path`: the chunk is appended. -/
def appendFile (fs : FileSystem) (path : String) (chunk : List Byte) : FileSystem :=
  setFile fs path ((fs path).getD [] ++ chunk)

/-- What a task leaves behind. -/
structure TaskResult where
  fs : FileSystem
  calls : List Call
  fin : TaskEnd

/-- The loop body of `download` for one key (lines 76-112), run to its end. -/
def downloadKey (w : World) (fs : FileSystem) (key : Key) : TaskResult :=
  match w.getObject key with
  | none => ⟨fs, [Call.getObject key], TaskEnd.fatal⟩
  | some reads =>
    let dir := pathDir key
    if w.mkdirAll dir = false then
      ⟨fs, [Call.getObject key, Call.mkdirAll dir], TaskEnd.panicked⟩
    else if w.create key = false then
      ⟨fs, [Call.getObject key, Call.mkdirAll dir, Call.create key], TaskEnd.fatal⟩
    else
      let copy := copyLoop (w.writeOk key) 0 reads
      let fs2 := copy.writes.foldl (fun f chunk => appendFile f key chunk) (createFile fs key)
      let calls := [Call.getObject key, Call.mkdirAll dir, Call.create key]
        ++ copy.writes.map (Call.write key)
      match copy.fin with
      | LoopEnd.done => ⟨fs2, calls ++ [Call.closeFile key], TaskEnd.completed⟩
      | LoopEnd.panicked => ⟨fs2, calls, TaskEnd.panicked⟩

/-- A bucket with the two objects of the scenario of the specification:
"x.txt" holding "hello" and "dir/y.txt" holding "world". -/
def sampleWorld : World where
  getObject := fun key =>
    if key = "x.txt" then some [⟨[104, 101, 108, 108, 111], ReadErr.nil⟩, ⟨[], ReadErr.eof⟩]
    else if key = "dir/y.txt" then some [⟨[119, 111, 114, 108, 100], ReadErr.eof⟩]
    else none
  mkdirAll := fun _ => true
  create := fun _ => true
  writeOk := fun _ _ => true

/-- The empty working directory. -/
def emptyFs : FileSystem := fun _ => none

/-- The bytes a completed task leaves in the file of a key: the concatenation
of the chunks the copy loop wrote for the body `GetObject` returned. -/
def objectBytes (w : World) (key : Key) : List Byte :=
  match w.getObject key with
  | none => []
  | some reads => fileBytes (copyLoop (w.writeOk key) 0 reads).writes

/-- A working directory that already holds a longer file "x.txt" and a file
"keep.txt" that is not in the bucket. -/
def staleFs : FileSystem := fun p =>
  if p = "x.txt" then some [1, 2, 3, 4, 5, 6, 7, 8, 9]
  else if p = "keep.txt" then some [42]
  else none

/-- A bucket in which the body of every object is `stalledReads`. -/
def stalledWorld : World where
  getObject := fun _ => some stalledReads
  mkdirAll := fun _ => true
  create := fun _ => true
  writeOk := fun _ _ => true

/-! ## Part 4: the program as a transition system

The process is the goroutine of `main` and the goroutines started at line 48.
A state holds the position of each goroutine, the channel, the counter of the
wait group and what has happened so far; a step is one goroutine doing the next
thing it does, chosen by the scheduler.  The answer of the outside world to the
call a step makes comes with the label of the step.  `log.Fatal` ends the
process with status 1 on the spot.  A `panic` (lines 84, 98, 107) that nothing
recovers first runs the deferred calls of its goroutine, one step each, while
the other goroutines run on, and then ends the process with status 2.  `main`
returning ends the process with status 0; when a goroutine is panicking at that
moment the Go runtime has `main` yield to it for a bounded number of turns
only, so either of the two may end the process, and the order is left to the
scheduler here.  Printing (lines 28, 32, 33, 74) is left out. -/

/-- The flags of lines 18-22 and the remote listing: the answers of the
successive page requests, `none` for a failed request. -/
structure Config where
  bucket : String
  keyFilter : String
  concurrency : Int
  listing : List (Option (List Key))
deriving DecidableEq

/-- The position of `main`. -/
inductive MainPc where
  /-- Line 27. -/
  | checkBucket
  /-- Lines 36-42. -/
  | loadConfig
  /-- Line 47, with the value of `t`. -/
  | spawn (t : Int)
  /-- Line 53. -/
  | hasMorePages
  /-- Line 55. -/
  | nextPage
  /-- Lines 60-62, with the part of `page.Contents` still to send. -/
  | send (keys : List Key)
  /-- Line 65. -/
  | close
  /-- Line 66. -/
  | wait
  /-- After the return of `main`. -/
  | done
deriving DecidableEq

/-- A call deferred by `download`: `wg.Done()` (line 72) or
`resp.Body.Close()` (line 80). -/
inductive Deferred where
  | wgDone
  | bodyClose (key : Key)
deriving DecidableEq

/-- The position of a `download` goroutine. -/
inductive WorkerPc where
  /-- Line 70, waiting for a key on the channel. -/
  | recv
  /-- Lines 71-72, with the key just received. -/
  | add (key : Key)
  /-- Lines 76-80. -/
  | getObject (key : Key)
  /-- Lines 82-85. -/
  | mkdirAll (key : Key)
  /-- Lines 88-93. -/
  | create (key : Key)
  /-- Lines 96-103. -/
  | read (key : Key)
  /-- Lines 106-108, with `buf[:n]`. -/
  | write (key : Key) (chunk : List Byte)
  /-- Line 112. -/
  | closeFile (key : Key)
  /-- After the loop of line 70, running the deferred calls. -/
  | returning
  /-- After a `panic`, running the deferred calls before the process ends; with
  the key the goroutine was working on, if any. -/
  | panicking (keys : List Key)
  /-- After the return of `download`. -/
  | finished
deriving DecidableEq

/-- A `download` goroutine: its position, its stack of deferred calls (the
latest first), the remote streams and the file handles it holds open, the keys
it has received and the keys whose file it has written and closed. -/
structure Worker where
  pc : WorkerPc
  deferred : List Deferred
  openBodies : List Key
  openFiles : List Key
  received : List Key
  completed : List Key
deriving DecidableEq

/-- A goroutine as `go download(...)` starts it. -/
def Worker.fresh : Worker := ⟨WorkerPc.recv, [], [], [], [], []⟩

/-- Whether the goroutine is running the deferred calls of a `panic`. -/
def Worker.panicking (w : Worker) : Bool :=
  match w.pc with
  | WorkerPc.panicking _ => true
  | _ => false

/-- Whether the goroutine has received a key and has neither closed its file
nor returned to the channel. -/
def Worker.inFlight (w : Worker) : Bool :=
  match w.pc with
  | WorkerPc.recv => false
  | WorkerPc.returning => false
  | WorkerPc.finished => false
  | _ => true

/-- Something the process did to the outside world, or a key passing through
the channel. -/
inductive Event where
  | loadConfig (ok : Bool)
  | startWorker
  | listPage (ok : Bool)
  | send (key : Key) (worker : Nat)
  | getObject (worker : Nat) (key : Key) (ok : Bool)
  | mkdirAll (worker : Nat) (dir : String) (ok : Bool)
  | create (worker : Nat) (path : String) (ok : Bool)
  | read (worker : Nat) (key : Key) (r : ReadResult)
  | write (worker : Nat) (path : String) (chunk : List Byte) (ok : Bool)
  | closeFile (worker : Nat) (path : String)
  | closeBody (worker : Nat) (key : Key)
deriving DecidableEq

/-- Whether the event is a call that failed: a page fetch, an object-body
fetch, a directory creation, a file creation, a chunk read with an error other
than `io.EOF`, a chunk write, or the loading of the configuration. -/
def Event.failed : Event → Bool
  | Event.loadConfig ok => !ok
  | Event.listPage ok => !ok
  | Event.getObject _ _ ok => !ok
  | Event.mkdirAll _ _ ok => !ok
  | Event.create _ _ ok => !ok
  | Event.read _ _ r => r.err == ReadErr.other
  | Event.write _ _ _ ok => !ok
  | _ => false

/-- The state of the process. -/
structure State where
  mainPc : MainPc
  /-- The field `firstPage` of the paginator. -/
  firstPage : Bool
  /-- The pages the remote listing has not returned yet. -/
  pagesLeft : List (Option (List Key))
  /-- Whether `ch` is closed. -/
  closed : Bool
  /-- The counter of `wg`. -/
  wgCount : Nat
  workers : List Worker
  /-- The keys sent on `ch`, in order. -/
  sent : List Key
  events : List Event
  /-- The exit status, once the process has ended. -/
  status : Option Nat
deriving DecidableEq

/-- The state at the start of `main`, after `flag.Parse()`. -/
def init (cfg : Config) : State where
  mainPc := MainPc.checkBucket
  firstPage := true
  pagesLeft := cfg.listing
  closed := false
  wgCount := 0
  workers := []
  sent := []
  events := []
  status := none

/-- The label of a step: which goroutine moves, and the answer of the outside
world to the call it makes, if it makes one.  `handoff i` is the send of line
61 meeting the receive of line 70 in goroutine `i`. -/
inductive Action where
  | main (ok : Bool)
  | handoff (i : Nat)
  | worker (i : Nat) (ok : Bool) (r : ReadResult)
deriving DecidableEq

/-- The state with goroutine `i` replaced. -/
def State.setWorker (s : State) (i : Nat) (w : Worker) : State :=
  { s with workers := s.workers.set i w }

/-- The state after an event. -/
def State.log (s : State) (e : Event) : State :=
  { s with events := s.events ++ [e] }

/-- The state after the process has ended with the given status. -/
def State.exit (s : State) (code : Nat) : State :=
  { s with status := some code }

/-- The method `HasMorePages` of the paginator: true before the first page and
while the last page came with a continuation token. -/
def State.hasMorePages (s : State) : Bool := s.firstPage || !s.pagesLeft.isEmpty

/-- The answer to the next page request: the next page of the listing; a
listing without pages answers the single request made with an empty page. -/
def State.pageAnswer (s : State) : Option (List Key) :=
  match s.pagesLeft with
  | [] => some []
  | page :: _ => page

/-- One step of `main`. -/
def mainStep (cfg : Config) (s : State) (ok : Bool) : Option State :=
  match s.mainPc with
  | MainPc.checkBucket =>
    if cfg.bucket = "" then some (s.exit 1)
    else some { s with mainPc := MainPc.loadConfig }
  | MainPc.loadConfig =>
    if ok then some ({ s with mainPc := MainPc.spawn 0 }.log (Event.loadConfig true))
    else some ((s.log (Event.loadConfig false)).exit 1)
  | MainPc.spawn t =>
    if t < cfg.concurrency then
      some ({ s with mainPc := MainPc.spawn (t + 1),
                     workers := s.workers ++ [Worker.fresh] }.log Event.startWorker)
    else some { s with mainPc := MainPc.hasMorePages }
  | MainPc.hasMorePages =>
    if s.hasMorePages then some { s with mainPc := MainPc.nextPage }
    else some { s with mainPc := MainPc.close }
  | MainPc.nextPage =>
    match s.pageAnswer with
    | none => some ((s.log (Event.listPage false)).exit 1)
    | some keys =>
      some ({ s with mainPc := MainPc.send keys, firstPage := false,
                     pagesLeft := s.pagesLeft.tail }.log (Event.listPage true))
  | MainPc.send [] => some { s with mainPc := MainPc.hasMorePages }
  | MainPc.send (_ :: _) => none
  | MainPc.close => some { s with mainPc := MainPc.wait, closed := true }
  | MainPc.wait =>
    if s.wgCount = 0 then some ({ s with mainPc := MainPc.done }.exit 0) else none
  | MainPc.done => none

/-- The rendezvous on the unbuffered channel: `ch <- *obj.Key` (line 61) in
`main` and `key := range ch` (line 70) in goroutine `i`. -/
def stepHandoff (s : State) (i : Nat) : Option State :=
  match s.mainPc, s.workers[i]? with
  | MainPc.send (key :: rest), some w =>
    if w.pc = WorkerPc.recv ∧ s.closed = false then
      some ({ (s.setWorker i { w with pc := WorkerPc.add key,
                                      received := w.received ++ [key] }) with
                mainPc := MainPc.send rest, sent := s.sent ++ [key] }.log (Event.send key i))
    else none
  | _, _ => none

/-- What a step of a `download` goroutine does to the counter of `wg`. -/
inductive WgOp where
  | none
  | add
  | done
deriving DecidableEq

/-- A step of a `download` goroutine as seen from the goroutine: its new
state, the call it made to the outside world if any, what it did to `wg`, and
the exit status if the step ended the process. -/
structure Move where
  worker : Worker
  event : Option Event
  wg : WgOp
  exit : Option Nat
deriving DecidableEq

/-- The key a `download` goroutine is working on, if it is inside the loop body. -/
def WorkerPc.current : WorkerPc → List Key
  | WorkerPc.add key => [key]
  | WorkerPc.getObject key => [key]
  | WorkerPc.mkdirAll key => [key]
  | WorkerPc.create key => [key]
  | WorkerPc.read key => [key]
  | WorkerPc.write key _ => [key]
  | WorkerPc.closeFile key => [key]
  | WorkerPc.panicking keys => keys
  | _ => []

/-- One step of `download` in goroutine `i`, given whether `ch` is closed, the
counter of `wg`, and the answer of the outside world to the call the step
makes; `none` when the goroutine is blocked on the channel or has returned.
A failed `GetObject` or `Create` is `log.Fatal` and ends the process; a failed
`MkdirAll`, `Read` or `Write` is a `panic`, after which the goroutine runs its
deferred calls, the latest first, and then ends the process with status 2.
`wg.Done()` on a counter that is 0 is a panic as well. -/
def Worker.downloadStep (w : Worker) (i : Nat) (closed : Bool) (count : Nat) (ok : Bool)
    (r : ReadResult) : Option Move :=
  match w.pc with
  | WorkerPc.recv =>
    if closed then some ⟨{ w with pc := WorkerPc.returning }, none, WgOp.none, none⟩
    else none
  | WorkerPc.add key =>
    some ⟨{ w with pc := WorkerPc.getObject key, deferred := Deferred.wgDone :: w.deferred },
      none, WgOp.add, none⟩
  | WorkerPc.getObject key =>
    if ok then
      some ⟨{ w with pc := WorkerPc.mkdirAll key,
                     deferred := Deferred.bodyClose key :: w.deferred,
                     openBodies := key :: w.openBodies },
        some (Event.getObject i key true), WgOp.none, none⟩
    else some ⟨w, some (Event.getObject i key false), WgOp.none, some 1⟩
  | WorkerPc.mkdirAll key =>
    if ok then
      some ⟨{ w with pc := WorkerPc.create key },
        some (Event.mkdirAll i (pathDir key) true), WgOp.none, none⟩
    else
      some ⟨{ w with pc := WorkerPc.panicking [key] },
        some (Event.mkdirAll i (pathDir key) false), WgOp.none, none⟩
  | WorkerPc.create key =>
    if ok then
      some ⟨{ w with pc := WorkerPc.read key, openFiles := key :: w.openFiles },
        some (Event.create i key true), WgOp.none, none⟩
    else some ⟨w, some (Event.create i key false), WgOp.none, some 1⟩
  | WorkerPc.read key =>
    match afterRead r with
    | AfterRead.panic =>
      some ⟨{ w with pc := WorkerPc.panicking [key] }, some (Event.read i key r),
        WgOp.none, none⟩
    | AfterRead.stop =>
      some ⟨{ w with pc := WorkerPc.closeFile key }, some (Event.read i key r), WgOp.none, none⟩
    | AfterRead.write chunk =>
      some ⟨{ w with pc := WorkerPc.write key chunk }, some (Event.read i key r),
        WgOp.none, none⟩
  | WorkerPc.write key chunk =>
    if ok then
      some ⟨{ w with pc := WorkerPc.read key }, some (Event.write i key chunk true),
        WgOp.none, none⟩
    else
      some ⟨{ w with pc := WorkerPc.panicking [key] },
        some (Event.write i key chunk false), WgOp.none, none⟩
  | WorkerPc.closeFile key =>
    some ⟨{ w with pc := WorkerPc.recv, openFiles := w.openFiles.erase key,
                   completed := w.completed ++ [key] },
      some (Event.closeFile i key), WgOp.none, none⟩
  | WorkerPc.returning =>
    match w.deferred with
    | [] => some ⟨{ w with pc := WorkerPc.finished }, none, WgOp.none, none⟩
    | Deferred.wgDone :: rest =>
      if count = 0 then
        some ⟨{ w with pc := WorkerPc.panicking [], deferred := rest }, none, WgOp.none, none⟩
      else some ⟨{ w with deferred := rest }, none, WgOp.done, none⟩
    | Deferred.bodyClose key :: rest =>
      some ⟨{ w with deferred := rest, openBodies := w.openBodies.erase key },
        some (Event.closeBody i key), WgOp.none, none⟩
  | WorkerPc.panicking _ =>
    match w.deferred with
    | [] => some ⟨w, none, WgOp.none, some 2⟩
    | Deferred.wgDone :: rest =>
      if count = 0 then some ⟨{ w with deferred := rest }, none, WgOp.none, none⟩
      else some ⟨{ w with deferred := rest }, none, WgOp.done, none⟩
    | Deferred.bodyClose key :: rest =>
      some ⟨{ w with deferred := rest, openBodies := w.openBodies.erase key },
        some (Event.closeBody i key), WgOp.none, none⟩
  | WorkerPc.finished => none

/-- The counter of `wg` after an operation. -/
def wgApply (count : Nat) : WgOp → Nat
  | WgOp.none => count
  | WgOp.add => count + 1
  | WgOp.done => count - 1

/-- One step of goroutine `i`. -/
def stepWorker (s : State) (i : Nat) (ok : Bool) (r : ReadResult) : Option State :=
  match s.workers[i]? with
  | none => none
  | some w =>
    match w.downloadStep i s.closed s.wgCount ok r with
    | none => none
    | some m =>
      some { s with workers := s.workers.set i m.worker,
                    events := s.events ++ m.event.toList,
                    wgCount := wgApply s.wgCount m.wg,
                    status := m.exit }

/-- One step of the process; a process that has ended takes no step. -/
def step (cfg : Config) (s : State) (a : Action) : Option State :=
  if s.status ≠ none then none
  else
    match a with
    | Action.main ok => mainStep cfg s ok
    | Action.handoff i => stepHandoff s i
    | Action.worker i ok r => stepWorker s i ok r

/-- The state after a sequence of steps, if each of them can be taken. -/
def runActions (cfg : Config) : State → List Action → Option State
  | s, [] => some s
  | s, a :: rest =>
    match step cfg s a with
    | none => none
    | some s2 => runActions cfg s2 rest

/-- The states the process can be in. -/
inductive Reachable (cfg : Config) : State → Prop where
  | init : Reachable cfg (init cfg)
  | step (s s2 : State) (a : Action) :
      Reachable cfg s → step cfg s a = some s2 → Reachable cfg s2

/-- The number of downloads in flight. -/
def State.inFlight (s : State) : Nat := s.workers.countP Worker.inFlight

/-- All the keys of a listing whose page requests all succeed, in page order
and in in-page order. -/
def listedKeys (listing : List (Option (List Key))) : List Key :=
  (listing.map (fun page => page.getD [])).flatten

/-- A read that returns `(0, io.EOF)`. -/
def eofRead : ReadResult := ⟨[], ReadErr.eof⟩

/-- A bucket "b" with the single key "x.txt" and one worker. -/
def raceCfg : Config := ⟨"b", "", 1, [some ["x.txt"]]⟩

/-- A schedule of `raceCfg` in which `main` runs on after the hand-over of the
key, through `close(ch)` and `wg.Wait()`, before the worker reaches
`wg.Add(1)`. -/
def raceSchedule : List Action :=
  [Action.main true, Action.main true, Action.main true, Action.main true,
   Action.main true, Action.main true, Action.handoff 0, Action.main true,
   Action.main true, Action.main true, Action.main true]

/-- A bucket "b" with the keys "a.txt" and "b.txt" on one page and one worker. -/
def leakCfg : Config := ⟨"b", "", 1, [some ["a.txt", "b.txt"]]⟩

/-- A schedule of `leakCfg`: the worker downloads "a.txt", an empty object,
closes its file, and receives "b.txt". -/
def leakSchedule : List Action :=
  [Action.main true, Action.main true, Action.main true, Action.main true,
   Action.main true, Action.main true, Action.handoff 0,
   Action.worker 0 true eofRead, Action.worker 0 true eofRead,
   Action.worker 0 true eofRead, Action.worker 0 true eofRead,
   Action.worker 0 true eofRead, Action.worker 0 true eofRead, Action.handoff 0]

/-- The flags of a run with the bucket flag left empty, the prefix "logs/" and
the default concurrency. -/
def noBucketCfg : Config := ⟨"", "logs/", 100, [some ["x.txt"]]⟩

/-- A schedule of `raceCfg` in which `GetObject` fails for "x.txt". -/
def failSchedule : List Action :=
  [Action.main true, Action.main true, Action.main true, Action.main true,
   Action.main true, Action.main true, Action.handoff 0,
   Action.worker 0 true eofRead, Action.worker 0 false eofRead]

/-- The state `failSchedule` leads to. -/
def failState : State where
  mainPc := MainPc.send []
  firstPage := false
  pagesLeft := []
  closed := false
  wgCount := 1
  workers := [⟨WorkerPc.getObject "x.txt", [Deferred.wgDone], [], [], ["x.txt"], []⟩]
  sent := ["x.txt"]
  events := [Event.loadConfig true, Event.startWorker, Event.listPage true,
    Event.send "x.txt" 0, Event.getObject 0 "x.txt" false]
  status := some 1

/-- Whether `main` has not yet left the loop of line 47 that starts the
workers. -/
def MainPc.starting : MainPc → Bool
  | MainPc.checkBucket => true
  | MainPc.loadConfig => true
  | MainPc.spawn _ => true
  | _ => false

/-- Whether a key has been produced: a page was requested from the listing, or
a key was sent on the channel. -/
def State.producing (s : State) : Prop :=
  (∃ ok, Event.listPage ok ∈ s.events) ∨ s.sent ≠ []

/-- The state `raceSchedule` leads to: `main` has returned with status 0 while
the worker that received "x.txt" has not yet called `wg.Add(1)`. -/
def raceState : State where
  mainPc := MainPc.done
  firstPage := false
  pagesLeft := []
  closed := true
  wgCount := 0
  workers := [⟨WorkerPc.add "x.txt", [], [], [], ["x.txt"], []⟩]
  sent := ["x.txt"]
  events := [Event.loadConfig true, Event.startWorker, Event.listPage true,
    Event.send "x.txt" 0]
  status := some 0

/-- The state `leakSchedule` leads to: the worker is at the start of its
second iteration, with the key "b.txt" just received. -/
def leakState : State where
  mainPc := MainPc.send []
  firstPage := false
  pagesLeft := []
  closed := false
  wgCount := 1
  workers := [⟨WorkerPc.add "b.txt", [Deferred.bodyClose "a.txt", Deferred.wgDone],
    ["a.txt"], [], ["a.txt", "b.txt"], ["a.txt"]⟩]
  sent := ["a.txt", "b.txt"]
  events := [Event.loadConfig true, Event.startWorker, Event.listPage true,
    Event.send "a.txt" 0, Event.getObject 0 "a.txt" true, Event.mkdirAll 0 "." true,
    Event.create 0 "a.txt" true, Event.read 0 "a.txt" eofRead, Event.closeFile 0 "a.txt",
    Event.send "b.txt" 0]
  status := none

/-- The flags of a run with the concurrency flag set to -1. -/
def negCfg : Config := ⟨"b", "", -1, [some ["x.txt"]]⟩

/-- A schedule in which `main` runs up to the first send without starting a
worker. -/
def negSchedule : List Action :=
  [Action.main true, Action.main true, Action.main true, Action.main true, Action.main true]

/-- The state `negSchedule` leads to, for `negCfg` and for `stuckCfg` alike: the
first page is listed, no worker was started, and `main` is blocked in the send
of "x.txt". -/
def negState : State where
  mainPc := MainPc.send ["x.txt"]
  firstPage := false
  pagesLeft := []
  closed := false
  wgCount := 0
  workers := []
  sent := []
  events := [Event.loadConfig true, Event.listPage true]
  status := none

/-- The keys of the current page `main` has still to send. -/
def MainPc.pending : MainPc → List Key
  | MainPc.send keys => keys
  | _ => []

/-- Whether `main` has left the listing loop of lines 53-63. -/
def MainPc.pastListing : MainPc → Bool
  | MainPc.close => true
  | MainPc.wait => true
  | MainPc.done => true
  | _ => false

/-- All the keys received by the workers, worker by worker. -/
def State.received (s : State) : List Key := (s.workers.map Worker.received).flatten

/-- The flags of a run with the concurrency flag set to 0. -/
def stuckCfg : Config := ⟨"b", "", 0, [some ["x.txt"]]⟩

/-! ### A run in which nothing fails

The schedule below lets worker 0 download every key, each object being empty,
and lets `main` run on only when the worker is back at the channel. -/

/-- The hand-over of one key to worker 0 and its download: `wg.Add`,
`GetObject`, `MkdirAll`, `Create`, a `Read` that returns `(0, io.EOF)`, and the
close of the file. -/
def keyBlock : List Action :=
  [Action.handoff 0, Action.worker 0 true eofRead, Action.worker 0 true eofRead,
   Action.worker 0 true eofRead, Action.worker 0 true eofRead,
   Action.worker 0 true eofRead, Action.worker 0 true eofRead]

/-- The downloads of the keys of one page. -/
def keysBlock : List Key → List Action
  | [] => []
  | _ :: rest => keyBlock ++ keysBlock rest

/-- One turn of the listing loop: `HasMorePages`, `NextPage`, the keys of the
page, and the end of the inner loop. -/
def pageBlock (keys : List Key) : List Action :=
  [Action.main true, Action.main true] ++ keysBlock keys ++ [Action.main true]

/-- The turns of the listing loop for the given pages. -/
def pagesBlock : List (List Key) → List Action
  | [] => []
  | keys :: rest => pageBlock keys ++ pagesBlock rest

/-- The stack of deferred calls of a worker that has downloaded the given keys,
the latest first. -/
def deferredAfter : List Key → List Deferred
  | [] => []
  | key :: earlier => Deferred.bodyClose key :: Deferred.wgDone :: deferredAfter earlier

/-- The steps of worker 0 that run its deferred calls. -/
def unwindBlock : List Key → List Action
  | [] => []
  | _ :: earlier =>
    Action.worker 0 true eofRead :: Action.worker 0 true eofRead :: unwindBlock earlier

/-- All the keys whose file has been written and closed, worker by worker. -/
def State.completed (s : State) : List Key := (s.workers.map Worker.completed).flatten

/-- The schedule of a run in which nothing fails, for `n` workers and the given
pages: the start of `main` and of the workers, the listing loop with worker 0
downloading every key, `close(ch)`, the return of worker 0 through its
deferred calls, and `wg.Wait()`. -/
def happySchedule (n : Nat) (pages : List (List Key)) : List Action :=
  [Action.main true, Action.main true] ++
  (List.replicate (n + 1) (Action.main true) ++
  ((if pages.isEmpty then pageBlock [] else pagesBlock pages) ++
  ([Action.main true, Action.main true, Action.worker 0 true eofRead] ++
  (unwindBlock pages.flatten.reverse ++ [Action.main true]))))

/-! ### Fatal errors -/

/-- Whether the event is a failed call the program answers with `log.Fatal`:
the loading of the configuration (line 38), a page fetch (line 57), an
object-body fetch (line 78) or a file creation (line 90). -/
def Event.fatal : Event → Bool
  | Event.loadConfig ok => !ok
  | Event.listPage ok => !ok
  | Event.getObject _ _ ok => !ok
  | Event.create _ _ ok => !ok
  | _ => false

/-- The goroutine of `download` that made the call, for the calls of `download`. -/
def Event.worker : Event → Option Nat
  | Event.getObject i _ _ => some i
  | Event.mkdirAll i _ _ => some i
  | Event.create i _ _ => some i
  | Event.read i _ _ => some i
  | Event.write i _ _ _ => some i
  | Event.closeFile i _ => some i
  | Event.closeBody i _ => some i
  | _ => none

/-- A bucket "b" with the keys "a.txt" and "b.txt" on one page and two workers. -/
def panicCfg : Config := ⟨"b", "", 2, [some ["a.txt", "b.txt"]]⟩

/-- A schedule of `panicCfg`: worker 0 receives "a.txt", its `MkdirAll` fails
and it panics; then worker 1 receives "b.txt" and fetches its body, and worker
0 runs the first of its deferred calls. -/
def panicSchedule : List Action :=
  [Action.main true, Action.main true, Action.main true, Action.main true,
   Action.main true, Action.main true, Action.main true, Action.handoff 0,
   Action.worker 0 true eofRead, Action.worker 0 true eofRead,
   Action.worker 0 false eofRead, Action.handoff 1, Action.worker 1 true eofRead,
   Action.worker 1 true eofRead, Action.worker 0 true eofRead]

/-- The state `panicSchedule` leads to. -/
def panicState : State where
  mainPc := MainPc.send []
  firstPage := false
  pagesLeft := []
  closed := false
  wgCount := 2
  workers := [⟨WorkerPc.panicking ["a.txt"], [Deferred.wgDone], [], [], ["a.txt"], []⟩,
    ⟨WorkerPc.mkdirAll "b.txt", [Deferred.bodyClose "b.txt", Deferred.wgDone], ["b.txt"], [],
      ["b.txt"], []⟩]
  sent := ["a.txt", "b.txt"]
  events := [Event.loadConfig true, Event.startWorker, Event.startWorker,
    Event.listPage true, Event.send "a.txt" 0, Event.getObject 0 "a.txt" true,
    Event.mkdirAll 0 "." false, Event.send "b.txt" 1, Event.getObject 1 "b.txt" true,
    Event.closeBody 0 "a.txt"]
  status := none

/-- A schedule of `raceCfg` in which the `MkdirAll` of worker 0 fails for
"x.txt", the worker runs its two deferred calls, `resp.Body.Close()` and
`wg.Done()`, and `main` returns from `wg.Wait()` before the panic has ended the
process. -/
def outrunSchedule : List Action :=
  [Action.main true, Action.main true, Action.main true, Action.main true,
   Action.main true, Action.main true, Action.handoff 0,
   Action.worker 0 true eofRead, Action.worker 0 true eofRead,
   Action.worker 0 false eofRead,
   Action.main true, Action.main true, Action.main true,
   Action.worker 0 true eofRead, Action.worker 0 true eofRead,
   Action.main true]

/-- The state `outrunSchedule` leads to. -/
def outrunState : State where
  mainPc := MainPc.done
  firstPage := false
  pagesLeft := []
  closed := true
  wgCount := 0
  workers := [⟨WorkerPc.panicking ["x.txt"], [], [], [], ["x.txt"], []⟩]
  sent := ["x.txt"]
  events := [Event.loadConfig true, Event.startWorker, Event.listPage true,
    Event.send "x.txt" 0, Event.getObject 0 "x.txt" true, Event.mkdirAll 0 "." false,
    Event.closeBody 0 "x.txt"]
  status := some 0

/-! ### The local files of a run

The files a run leaves are read off its events.  `os.Create` (line 88) opens a
handle at offset 0 on the file the path names, truncated; `file.Write` (line
106) writes at the offset of the handle of its goroutine and moves it on. -/

/-- The file a path names: the path without its empty and "." elements and
with ".." resolved, as `path.Clean` gives it, so that "a//b" and "a/b" name
one file. -/
def fileId (path : String) : String := String.mk (clean path.toList)

/-- The local files, by the file a path names, and the offset of the open
handle of each goroutine. -/
structure Disk where
  files : FileSystem
  offset : Nat → Nat

/-- The bytes of a file after `chunk` was written at offset `off`; a gap
between the end of the file and the offset reads as zeros. -/
def writeAt (old : List Byte) (off : Nat) (chunk : List Byte) : List Byte :=
  (old ++ List.replicate (off - old.length) 0).take off ++ chunk ++
    old.drop (off + chunk.length)

/-- The effect of an event on the local files: a successful `os.Create`
truncates the file and opens a handle at offset 0, a successful `file.Write`
writes the chunk at the offset of the handle. -/
def Disk.apply (d : Disk) : Event → Disk
  | Event.create i path true =>
    ⟨setFile d.files (fileId path) [], fun j => if j = i then 0 else d.offset j⟩
  | Event.write i path chunk true =>
    ⟨setFile d.files (fileId path)
        (writeAt ((d.files (fileId path)).getD []) (d.offset i) chunk),
      fun j => if j = i then d.offset i + chunk.length else d.offset j⟩
  | _ => d

/-- The local files and handles after the events of a run that started on the
files `fs`. -/
def diskAfter (fs : FileSystem) (events : List Event) : Disk :=
  events.foldl Disk.apply ⟨fs, fun _ => 0⟩

/-- The local files after the events of a run that started on the files `fs`. -/
def filesAfter (fs : FileSystem) (events : List Event) : FileSystem :=
  (diskAfter fs events).files

/-- The path of the file an event creates or writes, if it does. -/
def Event.touched : Event → Option String
  | Event.create _ path true => some path
  | Event.write _ path _ true => some path
  | _ => none

/-- The effect of an event on the bytes goroutine `i` has read from the body
of its current object: a successful `os.Create` of the goroutine starts the
copy, each `Read` adds its chunk. -/
def readsApply (i : Nat) (acc : List Byte) : Event → List Byte
  | Event.create j _ true => if j = i then [] else acc
  | Event.read j _ r => if j = i then acc ++ r.chunk else acc
  | _ => acc

/-- The bytes goroutine `i` has read from the body of its current object. -/
def taskReads (i : Nat) (events : List Event) : List Byte :=
  events.foldl (readsApply i) []

/-- Whether the event at position `n`, if it is the close of the file of a
key, comes after the goroutine has read exactly the content of that key. -/
def deliversAt (content : Key → List Byte) (events : List Event) (n : Nat) : Bool :=
  match events[n]? with
  | some (Event.closeFile i key) => decide (taskReads i (events.take n) = content key)
  | _ => true

/-- The bucket holds `content key` under each key, and the downloads of the run
read it to its end: whenever a goroutine closes the file of a key, the bytes it
has read from the body are the content of that key. -/
def DeliversAll (content : Key → List Byte) (events : List Event) : Prop :=
  ∀ n, n < events.length → deliversAt content events n = true

/-- Whether the event is part of a copy: a successful `os.Create`, a `Read` or a
successful `file.Write`. -/
def Event.copies : Event → Bool
  | Event.create _ _ true => true
  | Event.write _ _ _ true => true
  | Event.read _ _ _ => true
  | _ => false

/-- What the local files and the handle of goroutine `i` hold for the state of
the goroutine: during a copy the file of its key holds the bytes read from the
body so far, up to the chunk about to be written, and the handle stands at its
end; the file of every key the goroutine has completed holds the content of
the key. -/
def WorkerDisk (content : Key → List Byte) (d : Disk) (events : List Event) (i : Nat)
    (w : Worker) : Prop :=
  (∀ key, w.pc = WorkerPc.read key ∨ w.pc = WorkerPc.closeFile key →
    d.files (fileId key) = some (taskReads i events) ∧
    d.offset i = (taskReads i events).length) ∧
  (∀ key chunk, w.pc = WorkerPc.write key chunk →
    ∃ pre, taskReads i events = pre ++ chunk ∧ d.files (fileId key) = some pre ∧
      d.offset i = pre.length) ∧
  (∀ key ∈ w.completed, d.files (fileId key) = some (content key))

/-- The bucket "b" holds two keys that name the same local file, "a/b" and
"a//b"; two workers. -/
def collideCfg : Config := ⟨"b", "", 2, [some ["a/b", "a//b"]]⟩

/-- The content of the objects of `collideCfg`: one byte 1 under "a/b", one
byte 2 under "a//b". -/
def collideContent : Key → List Byte := fun key =>
  if key = "a/b" then [1] else if key = "a//b" then [2] else []

/-- The steps of goroutine `i` that download an object of the one chunk
`chunk`: `wg.Add`, `GetObject`, `MkdirAll`, `Create`, a `Read` of the chunk, its
`Write`, a `Read` that returns `(0, io.EOF)`, and the close of the file. -/
def taskBlock (i : Nat) (chunk : List Byte) : List Action :=
  [Action.worker i true eofRead, Action.worker i true eofRead,
   Action.worker i true eofRead, Action.worker i true eofRead,
   Action.worker i true ⟨chunk, ReadErr.nil⟩, Action.worker i true eofRead,
   Action.worker i true eofRead, Action.worker i true eofRead]

/-- The steps of goroutine `i` that leave the loop after `close(ch)` and run the
two deferred calls of its one download. -/
def returnBlock (i : Nat) : List Action :=
  [Action.worker i true eofRead, Action.worker i true eofRead, Action.worker i true eofRead]

/-- The start of a run with two workers and two keys on one page: `main` starts
the two workers, lists the page and hands the first key to worker 0 and the
second to worker 1. -/
def collideStart : List Action :=
  [Action.main true, Action.main true, Action.main true, Action.main true,
   Action.main true, Action.main true, Action.main true, Action.handoff 0,
   Action.handoff 1]

/-- The end of that run: `main` leaves the listing loop, closes the channel,
the workers return, and `wg.Wait()` returns. -/
def collideEnd : List Action :=
  [Action.main true, Action.main true, Action.main true] ++ returnBlock 0 ++ returnBlock 1 ++
    [Action.main true]

/-- A run in which worker 0 downloads the first key, of content `[1]`, before
worker 1 downloads the second, of content `[2]`. -/
def collideRun1 : List Action :=
  collideStart ++ taskBlock 0 [1] ++ taskBlock 1 [2] ++ collideEnd

/-- A run in which worker 1 downloads the second key, of content `[2]`, before
worker 0 downloads the first, of content `[1]`. -/
def collideRun2 : List Action :=
  collideStart ++ taskBlock 1 [2] ++ taskBlock 0 [1] ++ collideEnd

/-- The state at the end of `collideRun1` on `collideCfg`. -/
def collideState1 : State := (runActions collideCfg (init collideCfg) collideRun1).getD
  (init collideCfg)

/-- The state at the end of `collideRun2` on `collideCfg`. -/
def collideState2 : State := (runActions collideCfg (init collideCfg) collideRun2).getD
  (init collideCfg)

/-- The bucket "b" holds the keys "x.txt" and "a/b", which name two files; two
workers. -/
def pairCfg : Config := ⟨"b", "", 2, [some ["x.txt", "a/b"]]⟩

/-- The content of the objects of `pairCfg`: one byte 1 under "x.txt", one byte
2 under "a/b". -/
def pairContent : Key → List Byte := fun key =>
  if key = "x.txt" then [1] else if key = "a/b" then [2] else []

/-- The state at the end of the run of `pairCfg` in which worker 0 downloads
"x.txt" before worker 1 downloads "a/b". -/
def pairState1 : State := (runActions pairCfg (init pairCfg) collideRun1).getD (init pairCfg)

/-- The state at the end of the run of `pairCfg` in which worker 1 downloads
"a/b" before worker 0 downloads "x.txt". -/
def pairState2 : State := (runActions pairCfg (init pairCfg) collideRun2).getD (init pairCfg)

/-! ## Theorems -/

/-! ### The copy loop -/

theorem afterRead_of_ok (r : ReadResult) (he : r.err ≠ ReadErr.other)
    (hn : r.chunk.length ≠ 0) (hb : r.chunk.length ≤ bufSize) :
    afterRead r = AfterRead.write r.chunk := by
  unfold afterRead
  rw [if_neg he, if_neg hn, if_neg (Nat.not_lt.mpr hb)]

theorem afterRead_of_empty (r : ReadResult) (he : r.err ≠ ReadErr.other)
    (hn : r.chunk.length = 0) : afterRead r = AfterRead.stop := by
  unfold afterRead
  rw [if_neg he, if_pos hn]

theorem afterRead_write_bounds (r : ReadResult) (chunk : List Byte)
    (h : afterRead r = AfterRead.write chunk) :
    chunk = r.chunk ∧ 0 < chunk.length ∧ chunk.length ≤ bufSize := by
  unfold afterRead at h
  split at h
  · cases h
  · split at h
    · cases h
    · split at h
      · cases h
      · cases h
        refine ⟨rfl, ?_, ?_⟩ <;> omega

/-- Every chunk the loop writes is non-empty and at most 1024 bytes long,
whatever the body returns and whichever writes fail. -/
theorem copyLoop_write_bounds (writeOk : Nat → Bool) (reads : List ReadResult) :
    ∀ i, ∀ w ∈ (copyLoop writeOk i reads).writes, 0 < w.length ∧ w.length ≤ bufSize := by
  induction reads with
  | nil => intro i w hw; simp [copyLoop] at hw
  | cons r rest ih =>
    intro i w hw
    unfold copyLoop at hw
    split at hw
    · simp at hw
    · simp at hw
    · rename_i chunk hchunk
      split at hw
      · simp only [List.mem_cons] at hw
        rcases hw with rfl | hw
        · exact (afterRead_write_bounds r _ hchunk).2
        · exact ih (i + 1) w hw
      · simp at hw

/-- With no failing call the loop writes exactly the chunks read before the
first zero-length read, and ends at the `break`. -/
theorem copyLoop_eq (writeOk : Nat → Bool) (hw : ∀ j, writeOk j = true)
    (reads : List ReadResult)
    (herr : ∀ r ∈ reads, r.err ≠ ReadErr.other)
    (hlen : ∀ r ∈ reads, r.chunk.length ≤ bufSize) :
    ∀ i, copyLoop writeOk i reads =
      ⟨(beforeFirstEmpty reads).map ReadResult.chunk, LoopEnd.done⟩ := by
  induction reads with
  | nil => intro i; simp [copyLoop, beforeFirstEmpty]
  | cons r rest ih =>
    intro i
    have he := herr r (List.mem_cons_self _ _)
    have hb := hlen r (List.mem_cons_self _ _)
    have ih2 := ih (fun x hx => herr x (List.mem_cons_of_mem _ hx))
      (fun x hx => hlen x (List.mem_cons_of_mem _ hx)) (i + 1)
    by_cases hn : r.chunk.length = 0
    · simp [copyLoop, afterRead_of_empty r he hn, beforeFirstEmpty, List.takeWhile, hn]
    · have hne : (r.chunk.length != 0) = true := by simpa using hn
      simp only [copyLoop, afterRead_of_ok r he hn hb, hw i, if_true, ih2,
        beforeFirstEmpty, List.takeWhile, hne, List.map_cons]

/-- If no read after the first zero-length read returns bytes, the reads before
it carry all the bytes of the body. -/
theorem delivered_beforeFirstEmpty (reads : List ReadResult)
    (h : ∀ r ∈ reads.dropWhile (fun r => r.chunk.length != 0), r.chunk = []) :
    delivered (beforeFirstEmpty reads) = delivered reads := by
  induction reads with
  | nil => rfl
  | cons r rest ih =>
    by_cases hn : r.chunk.length = 0
    · have h0 : (r.chunk.length != 0) = false := by simp [hn]
      have hall : ∀ x ∈ r :: rest, x.chunk = [] := by
        intro x hx
        apply h
        simpa [List.dropWhile, h0] using hx
      have hd : ∀ l : List ReadResult, (∀ x ∈ l, x.chunk = []) → delivered l = [] := by
        intro l hl
        induction l with
        | nil => rfl
        | cons a t iht =>
          have ha := hl a (List.mem_cons_self _ _)
          have := iht (fun x hx => hl x (List.mem_cons_of_mem _ hx))
          simp only [delivered, List.map_cons, List.flatten_cons] at this ⊢
          rw [ha, this]; rfl
      rw [hd _ hall]
      simp [beforeFirstEmpty, List.takeWhile, h0, delivered]
    · have hne : (r.chunk.length != 0) = true := by simpa using hn
      have h2 : ∀ x ∈ rest.dropWhile (fun r => r.chunk.length != 0), x.chunk = [] := by
        intro x hx
        apply h
        simpa [List.dropWhile, hne] using hx
      have := ih h2
      simp only [beforeFirstEmpty, List.takeWhile, hne, delivered, List.map_cons,
        List.flatten_cons] at this ⊢
      rw [this]

/-- C10: the copy loop stops at the first `Read` that returns `n = 0`, whether
that read came with `io.EOF` or with a nil error, and has written every chunk
read before it.  Every single write is non-empty and at most 1024 bytes.  When
no read fails with a non-EOF error, every read respects the buffer length and
every write succeeds, the loop ends at its `break`, the writes are the chunks
`buf[:n]` of the reads before the first read with `n = 0`, in order, and the
file holds their concatenation.  In particular a read that returns `n > 0`
together with `io.EOF` has its bytes written, and the loop goes on to the next
read and ends there when that read is zero-length. -/
theorem C10_copyLoop_stops_at_first_empty_read (writeOk : Nat → Bool)
    (reads : List ReadResult) :
    (∀ w ∈ (copyLoop writeOk 0 reads).writes, 0 < w.length ∧ w.length ≤ 1024) ∧
    ((∀ r ∈ reads, r.err ≠ ReadErr.other) → (∀ r ∈ reads, r.chunk.length ≤ bufSize) →
      (∀ j, writeOk j = true) →
      copyLoop writeOk 0 reads =
        ⟨(beforeFirstEmpty reads).map ReadResult.chunk, LoopEnd.done⟩ ∧
      fileBytes (copyLoop writeOk 0 reads).writes = delivered (beforeFirstEmpty reads) ∧
      (∀ pre z post, reads = pre ++ z :: post → (∀ r ∈ pre, r.chunk.length ≠ 0) →
        z.chunk.length = 0 →
        (copyLoop writeOk 0 reads).writes = pre.map ReadResult.chunk) ∧
      (∀ pre c post, reads = pre ++ ⟨c, ReadErr.eof⟩ :: post →
        (∀ r ∈ pre, r.chunk.length ≠ 0) → c.length ≠ 0 →
        (copyLoop writeOk 0 reads).writes =
          pre.map ReadResult.chunk ++ c :: (beforeFirstEmpty post).map ReadResult.chunk)) := by
  refine ⟨copyLoop_write_bounds writeOk reads 0, ?_⟩
  intro herr hlen hw
  have heq := copyLoop_eq writeOk hw reads herr hlen 0
  have htw : ∀ pre : List ReadResult, (∀ r ∈ pre, r.chunk.length ≠ 0) →
      ∀ tl, beforeFirstEmpty (pre ++ tl) = pre ++ beforeFirstEmpty tl := by
    intro pre hpre tl
    induction pre with
    | nil => rfl
    | cons a t iht =>
      have ha : (a.chunk.length != 0) = true := by
        simpa using hpre a (List.mem_cons_self _ _)
      have := iht (fun x hx => hpre x (List.mem_cons_of_mem _ hx))
      simp only [beforeFirstEmpty, List.cons_append, List.takeWhile_cons, ha, if_true] at this ⊢
      rw [this]
  refine ⟨heq, ?_, ?_, ?_⟩
  · rw [heq]; rfl
  · intro pre z post hreads hpre hz
    rw [heq, hreads, htw pre hpre]
    have h0 : (z.chunk.length != 0) = false := by simp [hz]
    simp [beforeFirstEmpty, List.takeWhile, h0]
  · intro pre c post hreads hpre hc
    rw [heq, hreads, htw pre hpre]
    have h1 : (c.length != 0) = true := by simpa using hc
    simp [beforeFirstEmpty, List.takeWhile, h1]

theorem C10_copyLoop_witness :
    copyLoop allWritesOk 0 sampleReads = ⟨[[104, 105], [33]], LoopEnd.done⟩ ∧
    fileBytes (copyLoop allWritesOk 0 sampleReads).writes = [104, 105, 33] := by
  have h := (C10_copyLoop_stops_at_first_empty_read allWritesOk sampleReads).2
    (by decide) (by decide) (fun _ => rfl)
  exact ⟨h.1, h.2.1⟩

/-! ### One task: directory derivation and overwrite semantics -/

theorem lastSlashEnd_of_no_slash (path : List Char) (h : '/' ∉ path) :
    lastSlashEnd path = 0 := by
  induction path with
  | nil => rfl
  | cons c rest ih =>
    have hc : c ≠ '/' := fun e => h (by simp [e])
    have hr : '/' ∉ rest := fun e => h (List.mem_cons_of_mem _ e)
    simp [lastSlashEnd, ih hr, hc]

theorem pathDir_of_no_slash (key : Key) (h : '/' ∉ key.toList) : pathDir key = "." := by
  unfold pathDir splitDir
  rw [lastSlashEnd_of_no_slash _ h]
  rfl

theorem downloadKey_calls_shape (w : World) (fs : FileSystem) (key : Key) :
    ∃ tail, (∀ c ∈ tail, ∀ p, c ≠ Call.create p) ∧
      ((downloadKey w fs key).calls = [Call.getObject key] ∨
       (downloadKey w fs key).calls = [Call.getObject key, Call.mkdirAll (pathDir key)] ∨
       (downloadKey w fs key).calls =
          Call.getObject key :: Call.mkdirAll (pathDir key) :: Call.create key :: tail) := by
  unfold downloadKey
  split
  · exact ⟨[], by simp, Or.inl rfl⟩
  · rename_i reads _
    by_cases hm : w.mkdirAll (pathDir key) = false
    · exact ⟨[], by simp, Or.inr (Or.inl (by simp [hm]))⟩
    · by_cases hc : w.create key = false
      · exact ⟨[], by simp, Or.inr (Or.inr (by simp [hm, hc]))⟩
      · cases hfin : (copyLoop (w.writeOk key) 0 reads).fin
        · refine ⟨(copyLoop (w.writeOk key) 0 reads).writes.map (Call.write key)
            ++ [Call.closeFile key], ?_, Or.inr (Or.inr ?_)⟩
          · intro c hcm p
            simp only [List.mem_append, List.mem_map, List.mem_singleton] at hcm
            rcases hcm with ⟨x, _, rfl⟩ | rfl <;> exact fun e => Call.noConfusion e
          · simp [hm, hc, hfin]
        · refine ⟨(copyLoop (w.writeOk key) 0 reads).writes.map (Call.write key),
            ?_, Or.inr (Or.inr ?_)⟩
          · intro c hcm p
            simp only [List.mem_map] at hcm
            rcases hcm with ⟨x, _, rfl⟩
            exact fun e => Call.noConfusion e
          · simp [hm, hc, hfin]

/-- C4: directory derivation.  In every task, whatever the outside world
answers: the only directory passed to `MkdirAll` is `path.Dir(key)`; a call of
`os.Create` is the third call of the task, its path is exactly the key, and the
call before it is `MkdirAll(path.Dir(key))`; and when `GetObject` and
`MkdirAll` succeed the file is indeed created.  For the key "a/b/c.txt" the
directory is "a/b", so that "a" and "a/b" are the directories made to exist;
for every key without a '/' the directory is ".", the working directory
itself. -/
theorem C4_directory_derivation :
    (∀ (w : World) (fs : FileSystem) (key : Key) (i : Nat) (p : String),
      (downloadKey w fs key).calls[i]? = some (Call.create p) →
        p = key ∧ i = 2 ∧
        (downloadKey w fs key).calls[1]? = some (Call.mkdirAll (pathDir key))) ∧
    (∀ (w : World) (fs : FileSystem) (key : Key) (d : String),
      Call.mkdirAll d ∈ (downloadKey w fs key).calls → d = pathDir key) ∧
    (∀ (w : World) (fs : FileSystem) (key : Key) (reads : List ReadResult),
      w.getObject key = some reads → w.mkdirAll (pathDir key) = true →
        (downloadKey w fs key).calls[2]? = some (Call.create key)) ∧
    pathDir "a/b/c.txt" = "a/b" ∧ mkdirAllDirs "a/b" = ["a", "a/b"] ∧
    (∀ key : Key, '/' ∉ key.toList → pathDir key = ".") ∧
    pathDir "root.txt" = "." ∧ mkdirAllDirs "." = ["."] := by
  refine ⟨?_, ?_, ?_, by decide, by decide, pathDir_of_no_slash, by decide, by decide⟩
  · intro w fs key i p h
    obtain ⟨tail, htail, hshape⟩ := downloadKey_calls_shape w fs key
    rcases hshape with hs | hs | hs <;> rw [hs] at h ⊢
    · match i with
      | 0 => simp at h
      | n + 1 => simp at h
    · match i with
      | 0 => simp at h
      | 1 => simp at h
      | n + 2 => simp at h
    · match i with
      | 0 => simp at h
      | 1 => simp at h
      | 2 =>
        simp only [List.getElem?_cons_succ, List.getElem?_cons_zero, Option.some.injEq,
          Call.create.injEq] at h
        exact ⟨h.symm, rfl, rfl⟩
      | n + 3 =>
        simp only [List.getElem?_cons_succ] at h
        exact absurd rfl (htail _ (List.getElem?_mem h) p)
  · intro w fs key d h
    unfold downloadKey at h
    split at h
    · simp at h
    · rename_i reads _
      by_cases hm : w.mkdirAll (pathDir key) = false
      · simp [hm] at h; exact h
      · by_cases hc : w.create key = false
        · simp [hm, hc] at h; exact h
        · cases hfin : (copyLoop (w.writeOk key) 0 reads).fin <;>
            simp [hm, hc, hfin] at h <;> exact h
  · intro w fs key reads hg hm
    unfold downloadKey
    rw [hg]
    by_cases hc : w.create key = false
    · simp [hm, hc]
    · cases hfin : (copyLoop (w.writeOk key) 0 reads).fin <;> simp [hm, hc, hfin]

theorem C4_directory_derivation_witness :
    (downloadKey sampleWorld emptyFs "dir/y.txt").calls[2]? = some (Call.create "dir/y.txt") ∧
    (downloadKey sampleWorld emptyFs "dir/y.txt").calls[1]? = some (Call.mkdirAll "dir") ∧
    pathDir "x.txt" = "." := by
  have h := C4_directory_derivation
  have h2 := h.2.2.1 sampleWorld emptyFs "dir/y.txt" [⟨[119, 111, 114, 108, 100], ReadErr.eof⟩]
    (by decide) (by decide)
  exact ⟨h2, (h.1 sampleWorld emptyFs "dir/y.txt" 2 "dir/y.txt" h2).2.2,
    h.2.2.2.2.2.1 "x.txt" (by decide)⟩

theorem foldl_appendFile (key : Key) (writes : List (List Byte)) :
    ∀ (fs : FileSystem) (bytes : List Byte),
      writes.foldl (fun f chunk => appendFile f key chunk) (setFile fs key bytes) =
        setFile fs key (bytes ++ writes.flatten) := by
  induction writes with
  | nil => intro fs bytes; simp
  | cons chunk rest ih =>
    intro fs bytes
    have h : appendFile (setFile fs key bytes) key chunk = setFile fs key (bytes ++ chunk) := by
      funext p
      by_cases hp : p = key <;> simp [appendFile, setFile, hp]
    simp only [List.foldl_cons, h, ih, List.flatten_cons, List.append_assoc]

/-- A completed task has replaced the file of its key by the bytes the copy
loop wrote, whatever the file held before, and has touched no other file. -/
theorem downloadKey_fs_of_completed (w : World) (fs : FileSystem) (key : Key)
    (h : (downloadKey w fs key).fin = TaskEnd.completed) :
    (downloadKey w fs key).fs = setFile fs key (objectBytes w key) := by
  unfold downloadKey at h ⊢
  unfold objectBytes
  split
  · rename_i hg; simp [hg] at h
  · rename_i reads hg
    simp only [hg] at h
    by_cases hm : w.mkdirAll (pathDir key) = false
    · simp [hm] at h
    · by_cases hc : w.create key = false
      · simp [hm, hc] at h
      · cases hfin : (copyLoop (w.writeOk key) 0 reads).fin
        · simp [hm, hc, hfin, createFile, foldl_appendFile, fileBytes]
        · simp [hm, hc, hfin] at h

/-! ### The file written for a key -/

theorem downloadKey_fin_of_copy_done (w : World) (fs : FileSystem) (key : Key)
    (reads : List ReadResult) (hg : w.getObject key = some reads)
    (hm : w.mkdirAll (pathDir key) = true) (hc : w.create key = true)
    (hd : (copyLoop (w.writeOk key) 0 reads).fin = LoopEnd.done) :
    (downloadKey w fs key).fin = TaskEnd.completed := by
  unfold downloadKey
  simp [hg, hm, hc, hd]

/-- C1, as stated, fails: the body `stalledReads` has no failing read, respects
the buffer length and delivers the five bytes of "hello", yet the copy loop
ends at its first read, which is zero-length, and the task completes leaving
an empty file at the path of the key. -/
theorem C1_counterexample :
    ¬ (∀ (reads : List ReadResult) (content : List Byte),
        (∀ r ∈ reads, r.err ≠ ReadErr.other) →
        (∀ r ∈ reads, r.chunk.length ≤ bufSize) →
        delivered reads = content →
        fileBytes (copyLoop allWritesOk 0 reads).writes = content) ∧
    (delivered stalledReads = [104, 101, 108, 108, 111] ∧
      (downloadKey stalledWorld emptyFs "x.txt").fin = TaskEnd.completed ∧
      (downloadKey stalledWorld emptyFs "x.txt").fs "x.txt" = some []) := by
  refine ⟨?_, by decide, by decide, by decide⟩
  intro h
  have h1 := h stalledReads [104, 101, 108, 108, 111] (by decide) (by decide) (by decide)
  revert h1
  decide

/-- C1, amended: for every body that delivers the content `content` through
reads of which none fails with a non-EOF error, each respects the buffer
length, and none returns zero bytes before the last byte has been delivered
(once a read returns `n = 0`, no later read returns bytes), the copy loop ends
at its `break` and the concatenation of the chunks it wrote is `content`,
whatever the size of the object, provided every write succeeds; and a task
whose `GetObject` returns this body and whose `MkdirAll` and `Create` succeed
completes and leaves exactly `content` in the file at the path of the key,
whatever was there before. -/
theorem C1_copyLoop_writes_content (writeOk : Nat → Bool) (reads : List ReadResult)
    (content : List Byte)
    (herr : ∀ r ∈ reads, r.err ≠ ReadErr.other)
    (hlen : ∀ r ∈ reads, r.chunk.length ≤ bufSize)
    (hw : ∀ j, writeOk j = true)
    (hstall : ∀ r ∈ reads.dropWhile (fun r => r.chunk.length != 0), r.chunk = [])
    (hc : delivered reads = content) :
    (copyLoop writeOk 0 reads).fin = LoopEnd.done ∧
    fileBytes (copyLoop writeOk 0 reads).writes = content ∧
    (∀ (w : World) (fs : FileSystem) (key : Key), w.getObject key = some reads →
      w.writeOk key = writeOk → w.mkdirAll (pathDir key) = true → w.create key = true →
      (downloadKey w fs key).fin = TaskEnd.completed ∧
      (downloadKey w fs key).fs key = some content) := by
  have hcopy := copyLoop_eq writeOk hw reads herr hlen 0
  have hbytes : fileBytes (copyLoop writeOk 0 reads).writes = content := by
    rw [hcopy, ← hc, ← delivered_beforeFirstEmpty reads hstall]
    rfl
  refine ⟨by rw [hcopy], hbytes, ?_⟩
  intro w fs key hg hwo hm hcr
  have hfin := downloadKey_fin_of_copy_done w fs key reads hg hm hcr
    (by rw [hwo, hcopy])
  refine ⟨hfin, ?_⟩
  rw [downloadKey_fs_of_completed w fs key hfin]
  simp only [setFile, if_true, objectBytes, hg, hwo, hbytes]

theorem C1_copyLoop_witness :
    fileBytes (copyLoop allWritesOk 0 largeReads).writes =
      List.replicate 1024 7 ++ List.replicate 476 9 ∧
    fileBytes (copyLoop allWritesOk 0 []).writes = [] :=
  ⟨(C1_copyLoop_writes_content allWritesOk largeReads
      (List.replicate 1024 7 ++ List.replicate 476 9)
      (by
        intro r hr
        simp only [largeReads, List.mem_cons, List.mem_singleton, List.not_mem_nil,
          or_false] at hr
        rcases hr with rfl | rfl | rfl <;> exact fun h => ReadErr.noConfusion h)
      (by
        intro r hr
        simp only [largeReads, List.mem_cons, List.mem_singleton, List.not_mem_nil,
          or_false] at hr
        rcases hr with rfl | rfl | rfl <;>
          simp only [List.length_replicate, List.length_nil, bufSize] <;> omega)
      (fun _ => rfl)
      (by
        intro r hr
        have h1 : ((1024 : Nat) != 0) = true := rfl
        have h2 : ((476 : Nat) != 0) = true := rfl
        have h3 : ((0 : Nat) != 0) = false := rfl
        simp only [largeReads, List.dropWhile_cons, List.length_replicate, List.length_nil,
          h1, h2, h3, if_true, Bool.false_eq_true, if_false, List.mem_singleton] at hr
        rw [hr])
      (by
        simp only [largeReads, delivered, List.map_cons, List.map_nil, List.flatten_cons,
          List.flatten_nil, List.append_nil])).2.1,
   (C1_copyLoop_writes_content allWritesOk [] [] (by simp) (by simp) (fun _ => rfl)
      (by simp) rfl).2.1⟩

/-! ### The transition system: general facts -/

theorem step_status_none (cfg : Config) (s s2 : State) (a : Action)
    (h : step cfg s a = some s2) : s.status = none := by
  unfold step at h
  split at h
  · cases h
  · rename_i hs
    simpa using hs

theorem step_of_exited (cfg : Config) (s : State) (a : Action) (h : s.status ≠ none) :
    step cfg s a = none := by
  unfold step
  rw [if_pos h]

theorem reachable_of_runActions (cfg : Config) (acts : List Action) :
    ∀ s s2, Reachable cfg s → runActions cfg s acts = some s2 → Reachable cfg s2 := by
  induction acts with
  | nil =>
    intro s s2 hr h
    simp only [runActions, Option.some.injEq] at h
    exact h ▸ hr
  | cons a rest ih =>
    intro s s2 hr h
    unfold runActions at h
    split at h
    · cases h
    · rename_i s1 hs1
      exact ih s1 s2 (Reachable.step s s1 a hr hs1) h

theorem runActions_append (cfg : Config) (acts1 acts2 : List Action) :
    ∀ s s1, runActions cfg s acts1 = some s1 →
      runActions cfg s (acts1 ++ acts2) = runActions cfg s1 acts2 := by
  induction acts1 with
  | nil =>
    intro s s1 h
    simp only [runActions, Option.some.injEq] at h
    subst h
    rfl
  | cons a rest ih =>
    intro s s1 h
    cases hstep : step cfg s a with
    | none => simp [runActions, hstep] at h
    | some y =>
      simp only [runActions, hstep] at h
      simp only [List.cons_append, runActions, hstep]
      exact ih y s1 h

theorem stepWorker_spec (s s2 : State) (i : Nat) (ok : Bool) (r : ReadResult)
    (h : stepWorker s i ok r = some s2) :
    ∃ w m, s.workers[i]? = some w ∧ w.downloadStep i s.closed s.wgCount ok r = some m ∧
      s2 = { s with workers := s.workers.set i m.worker,
                    events := s.events ++ m.event.toList,
                    wgCount := wgApply s.wgCount m.wg,
                    status := m.exit } := by
  simp only [stepWorker] at h
  split at h
  · cases h
  · rename_i w hw
    split at h
    · cases h
    · rename_i m hm
      simp only [Option.some.injEq] at h
      exact ⟨w, m, hw, hm, h.symm⟩

theorem stepHandoff_spec (s s2 : State) (i : Nat) (h : stepHandoff s i = some s2) :
    ∃ key rest w, s.mainPc = MainPc.send (key :: rest) ∧ s.workers[i]? = some w ∧
      w.pc = WorkerPc.recv ∧ s.closed = false ∧
      s2 = { s with workers := s.workers.set i (Worker.mk (WorkerPc.add key) w.deferred
                                      w.openBodies w.openFiles (w.received ++ [key]) w.completed),
                    mainPc := MainPc.send rest,
                    sent := s.sent ++ [key],
                    events := s.events ++ [Event.send key i] } := by
  simp only [stepHandoff] at h
  split at h
  · rename_i key rest w hpc hw
    split at h
    · rename_i hcond
      simp only [Option.some.injEq] at h
      exact ⟨key, rest, w, hpc, hw, hcond.1, hcond.2, h.symm⟩
    · cases h
  · cases h


/-! ### Missing bucket and fatal errors -/

/-- C5: when the bucket flag is the empty string, whatever the other flags and
the remote listing are, the first step of `main` ends the process with status
1, and in every state the process can be in nothing has happened: no
configuration was loaded, no worker started, no page listed, no object
fetched, no directory or file created or written, no key sent; the process is
either at its start or has ended with status 1. -/
theorem C5_missing_bucket (cfg : Config) (hb : cfg.bucket = "") :
    (∀ ok, step cfg (init cfg) (Action.main ok) = some ((init cfg).exit 1)) ∧
    (∀ s, Reachable cfg s →
      (s = init cfg ∨ s = (init cfg).exit 1) ∧
      s.events = [] ∧ s.workers = [] ∧ s.sent = [] ∧
      (s.status = none ∨ s.status = some 1)) := by
  have hfirst : ∀ ok, step cfg (init cfg) (Action.main ok) = some ((init cfg).exit 1) := by
    intro ok
    simp [step, mainStep, init, hb]
  refine ⟨hfirst, ?_⟩
  have hinv : ∀ s, Reachable cfg s → (s = init cfg ∨ s = (init cfg).exit 1) := by
    intro s hr
    induction hr with
    | init => exact Or.inl rfl
    | step s s2 a _ hstep ih =>
      rcases ih with rfl | rfl
      · cases a with
        | main ok =>
          rw [hfirst ok] at hstep
          exact Or.inr (Option.some.inj hstep).symm
        | handoff i => simp [step, stepHandoff, init] at hstep
        | worker i ok r => simp [step, stepWorker, init] at hstep
      · simp [step, State.exit] at hstep
  intro s hr
  refine ⟨hinv s hr, ?_⟩
  rcases hinv s hr with rfl | rfl <;> simp [init, State.exit]

theorem C5_missing_bucket_witness :
    step noBucketCfg (init noBucketCfg) (Action.main true) = some ((init noBucketCfg).exit 1) ∧
    ((init noBucketCfg).exit 1).events = [] ∧
    ((init noBucketCfg).exit 1).status = some 1 :=
  ⟨(C5_missing_bucket noBucketCfg rfl).1 true,
   ((C5_missing_bucket noBucketCfg rfl).2 _
      (Reachable.step _ _ (Action.main true) Reachable.init
        ((C5_missing_bucket noBucketCfg rfl).1 true))).2.1,
   rfl⟩

/-! ### Fatal errors: `log.Fatal` and `panic` -/

theorem move_event_fatal (w : Worker) (i : Nat) (closed : Bool) (count : Nat) (ok : Bool)
    (r : ReadResult) (m : Move) (h : w.downloadStep i closed count ok r = some m) :
    ∀ e, m.event = some e → e.fatal = true → m.exit = some 1 := by
  unfold Worker.downloadStep at h
  split at h <;> (try split at h) <;> (try split at h) <;>
    simp only [Option.some.injEq, reduceCtorEq] at h <;> subst h <;>
    simp_all [Event.fatal]

theorem move_event_panics (w : Worker) (i : Nat) (closed : Bool) (count : Nat) (ok : Bool)
    (r : ReadResult) (m : Move) (h : w.downloadStep i closed count ok r = some m) :
    ∀ e, m.event = some e → e.failed = true → e.fatal = false →
      e.worker = some i ∧ m.worker.panicking = true := by
  unfold Worker.downloadStep at h
  split at h <;> (try split at h) <;> (try split at h) <;>
    simp only [Option.some.injEq, reduceCtorEq] at h <;> subst h <;>
    simp_all [Event.fatal, Event.failed, Event.worker, Worker.panicking] <;>
    (intro he; simp [afterRead, he] at *)

theorem move_panicking (w : Worker) (i : Nat) (closed : Bool) (count : Nat) (ok : Bool)
    (r : ReadResult) (m : Move) (h : w.downloadStep i closed count ok r = some m)
    (hp : w.panicking = true) :
    m.worker.panicking = true ∧ m.worker.received = w.received ∧
    m.worker.completed = w.completed ∧ m.worker.pc = w.pc := by
  unfold Worker.downloadStep at h
  unfold Worker.panicking at hp
  split at h <;> (try split at h) <;> (try split at h) <;>
    simp only [Option.some.injEq, reduceCtorEq] at h <;> subst h <;>
    simp_all [Worker.panicking]

/-- What one step does to the log of events: nothing, or one more event; a
failed call that is answered with `log.Fatal` ends the process with status 1
in the same step. -/
theorem step_events (cfg : Config) (s s2 : State) (a : Action)
    (h : step cfg s a = some s2) :
    s2.events = s.events ∨
    ∃ e, s2.events = s.events ++ [e] ∧ (e.fatal = true → s2.status = some 1) ∧
      (e.failed = true → e.fatal = false →
        ∃ i w, e.worker = some i ∧ s2.workers[i]? = some w ∧ w.panicking = true) := by
  unfold step at h
  split at h
  · cases h
  · cases a with
    | main ok =>
      simp only [mainStep] at h
      split at h <;> (try split at h) <;>
        simp only [Option.some.injEq, reduceCtorEq] at h <;> subst h <;>
        simp [State.log, State.exit, Event.fatal, Event.failed]
    | handoff i =>
      simp only [stepHandoff] at h
      split at h
      · split at h
        · simp only [Option.some.injEq] at h
          subst h
          simp [State.log, State.setWorker, Event.fatal, Event.failed]
        · cases h
      · cases h
    | worker i ok r =>
      obtain ⟨w, m, hw, hm, rfl⟩ := stepWorker_spec s s2 i ok r h
      cases hev : m.event with
      | none => left; simp [hev]
      | some e =>
        right
        refine ⟨e, by simp [hev], fun hf => ?_, fun hf hnf => ?_⟩
        · exact move_event_fatal w i s.closed s.wgCount ok r m hm e hev hf
        · obtain ⟨hwk, hpan⟩ := move_event_panics w i s.closed s.wgCount ok r m hm e hev hf hnf
          have hlt : i < s.workers.length := by
            rcases List.getElem?_eq_some_iff.mp hw with ⟨hlt, _⟩
            exact hlt
          exact ⟨i, m.worker, hwk, by simp [hlt], hpan⟩

/-- A goroutine that is panicking stays so at every step of the process: it
receives no further key and closes no further file. -/
theorem step_keeps_panicking (cfg : Config) (s s2 : State) (a : Action)
    (h : step cfg s a = some s2) (i : Nat) (w : Worker) (hw : s.workers[i]? = some w)
    (hp : w.panicking = true) :
    ∃ w2, s2.workers[i]? = some w2 ∧ w2.panicking = true ∧ w2.received = w.received ∧
      w2.completed = w.completed ∧ w2.pc = w.pc := by
  have hlt : i < s.workers.length := by
    rcases List.getElem?_eq_some_iff.mp hw with ⟨hlt, _⟩
    exact hlt
  unfold step at h
  split at h
  · cases h
  · cases a with
    | main ok =>
      simp only [mainStep] at h
      split at h <;> (try split at h) <;>
        simp only [Option.some.injEq, reduceCtorEq] at h <;> subst h <;>
        simp [State.log, State.exit, hw, hp, List.getElem?_append_left hlt]
    | handoff j =>
      obtain ⟨key, rest, wj, _, hwj, hrecv, _, rfl⟩ := stepHandoff_spec s s2 j h
      have hne : j ≠ i := by
        intro hji
        subst hji
        rw [hw] at hwj
        cases hwj
        simp [Worker.panicking, hrecv] at hp
      exact ⟨w, by simp [List.getElem?_set_ne hne, hw], hp, rfl, rfl, rfl⟩
    | worker j ok r =>
      obtain ⟨wj, m, hwj, hm, rfl⟩ := stepWorker_spec s s2 j ok r h
      by_cases hji : j = i
      · subst hji
        rw [hw] at hwj
        cases hwj
        obtain ⟨h1, h2, h3, h4⟩ := move_panicking w j s.closed s.wgCount ok r m hm hp
        exact ⟨m.worker, by simp [hlt], h1, h2, h3, h4⟩
      · exact ⟨w, by simp [List.getElem?_set_ne hji, hw], hp, rfl, rfl, rfl⟩

/-- No call answered with `log.Fatal` has failed, or the last event is the one
such call and the process has ended with status 1. -/
theorem fatal_invariant (cfg : Config) (s : State) (hr : Reachable cfg s) :
    (∀ e ∈ s.events, e.fatal = false) ∨
    (∃ pre e, s.events = pre ++ [e] ∧ (∀ x ∈ pre, x.fatal = false) ∧
      e.fatal = true ∧ s.status = some 1) := by
  induction hr with
  | init => left; simp [init]
  | step s s2 a _ hstep ih =>
    have hnone := step_status_none cfg s s2 a hstep
    have hok : ∀ e ∈ s.events, e.fatal = false := by
      rcases ih with h | ⟨_, _, _, _, _, hc⟩
      · exact h
      · rw [hnone] at hc; cases hc
    rcases step_events cfg s s2 a hstep with he | ⟨e, he, hfatal, _⟩
    · left; rw [he]; exact hok
    · by_cases hf : e.fatal = true
      · exact Or.inr ⟨s.events, e, he, hok, hf, hfatal hf⟩
      · left
        rw [he]
        intro x hx
        rcases List.mem_append.mp hx with hx | hx
        · exact hok x hx
        · rw [List.mem_singleton.mp hx]; simpa using hf

/-- The goroutine of every failed call that is answered with `panic` is
panicking. -/
theorem panic_invariant (cfg : Config) (s : State) (hr : Reachable cfg s) :
    ∀ e ∈ s.events, e.failed = true → e.fatal = false →
      ∃ i w, e.worker = some i ∧ s.workers[i]? = some w ∧ w.panicking = true := by
  induction hr with
  | init => simp [init]
  | step s s2 a _ hstep ih =>
    have hold : ∀ e ∈ s.events, e.failed = true → e.fatal = false →
        ∃ i w, e.worker = some i ∧ s2.workers[i]? = some w ∧ w.panicking = true := by
      intro e he hf hnf
      obtain ⟨i, w, hwk, hw, hp⟩ := ih e he hf hnf
      obtain ⟨w2, hw2, hp2, _⟩ := step_keeps_panicking cfg s s2 a hstep i w hw hp
      exact ⟨i, w2, hwk, hw2, hp2⟩
    rcases step_events cfg s s2 a hstep with he | ⟨e, he, _, hpan⟩
    · rw [he]; exact hold
    · rw [he]
      intro x hx hf hnf
      rcases List.mem_append.mp hx with hx | hx
      · exact hold x hx hf hnf
      · rw [List.mem_singleton.mp hx] at hf hnf ⊢
        exact hpan hf hnf

/-- The exit status is 0 only if no call that the program answers with
`log.Fatal` has failed, and only if no call at all has failed unless some
goroutine is still running the deferred calls of its panic. -/
theorem failures_of_exit_zero (cfg : Config) (s : State) (hr : Reachable cfg s)
    (h0 : s.status = some 0) :
    (∀ e ∈ s.events, e.fatal = false) ∧
    ((∀ e ∈ s.events, e.failed = false) ∨ s.workers.any Worker.panicking = true) := by
  have hfat : ∀ e ∈ s.events, e.fatal = false := by
    rcases fatal_invariant cfg s hr with h | ⟨_, _, _, _, _, hc⟩
    · exact h
    · rw [h0] at hc; cases hc
  refine ⟨hfat, ?_⟩
  by_cases hall : ∀ e ∈ s.events, e.failed = false
  · exact Or.inl hall
  · right
    simp only [not_forall, Bool.not_eq_false] at hall
    obtain ⟨e, he, hf⟩ := hall
    obtain ⟨i, w, _, hw, hp⟩ := panic_invariant cfg s hr e he hf (hfat e he)
    rw [List.any_eq_true]
    exact ⟨w, List.getElem?_mem hw, hp⟩

/-- A panicking goroutine that is given its turn runs its deferred calls and
then ends the process with status 2. -/
theorem panicking_exits (cfg : Config) (n : Nat) :
    ∀ (s : State) (i : Nat) (w : Worker), s.status = none → s.workers[i]? = some w →
      w.panicking = true → w.deferred.length = n →
      ∃ s2, runActions cfg s (List.replicate (n + 1) (Action.worker i true eofRead)) = some s2 ∧
        s2.status = some 2 := by
  induction n with
  | zero =>
    intro s i w hs hw hp hlen
    have hd : w.deferred = [] := List.length_eq_zero.mp hlen
    unfold Worker.panicking at hp
    split at hp
    · rename_i keys hpc
      refine ⟨{ s with workers := s.workers.set i w,
                       events := s.events ++ (none : Option Event).toList,
                       wgCount := wgApply s.wgCount WgOp.none,
                       status := some 2 }, ?_, rfl⟩
      simp [runActions, step, hs, stepWorker, hw, Worker.downloadStep, hpc, hd]
    · cases hp
  | succ n ih =>
    intro s i w hs hw hp hlen
    have hlt : i < s.workers.length := by
      rcases List.getElem?_eq_some_iff.mp hw with ⟨hlt, _⟩
      exact hlt
    obtain ⟨m, hm⟩ : ∃ m, w.downloadStep i s.closed s.wgCount true eofRead = some m ∧
        m.exit = none ∧ m.worker.deferred.length = n := by
      unfold Worker.panicking at hp
      split at hp
      · rename_i keys hpc
        cases hd : w.deferred with
        | nil => simp [hd] at hlen
        | cons d rest =>
          have hrest : rest.length = n := by simpa [hd] using hlen
          cases d with
          | wgDone =>
            by_cases hc : s.wgCount = 0
            · exact ⟨⟨{ w with deferred := rest }, none, WgOp.none, none⟩,
                by simp [Worker.downloadStep, hpc, hd, hc], rfl, hrest⟩
            · exact ⟨⟨{ w with deferred := rest }, none, WgOp.done, none⟩,
                by simp [Worker.downloadStep, hpc, hd, hc], rfl, hrest⟩
          | bodyClose key =>
            exact ⟨⟨{ w with deferred := rest, openBodies := w.openBodies.erase key },
                some (Event.closeBody i key), WgOp.none, none⟩,
              by simp [Worker.downloadStep, hpc, hd], rfl, hrest⟩
      · cases hp
    obtain ⟨hmove, hexit, hlen2⟩ := hm
    have hp2 := (move_panicking w i s.closed s.wgCount true eofRead m hmove hp).1
    obtain ⟨s2, hrun, hst⟩ := ih
      { s with workers := s.workers.set i m.worker,
               events := s.events ++ m.event.toList,
               wgCount := wgApply s.wgCount m.wg,
               status := m.exit } i m.worker hexit (by simp [hlt]) hp2 hlen2
    refine ⟨s2, ?_, hst⟩
    rw [List.replicate_succ, runActions]
    simp only [step, hs, ne_eq, not_true_eq_false, if_false, stepWorker, hw, hmove]
    exact hrun

/-- C6, as stated, fails for the failures the program answers with `panic`:
in `panicState` the `MkdirAll` of worker 0 has failed, yet the process has not
ended, and after that failure the key "b.txt" was sent to worker 1 and
fetched, and worker 0 closed the body of "a.txt".  And in `outrunState` the
`MkdirAll` of worker 0 has failed and the exit status is 0: the deferred
`wg.Done()` of the panicking worker has let `main` return from `wg.Wait()`
before the panic ended the process. -/
theorem C6_counterexample :
    ¬ (∀ (cfg : Config) (s : State), Reachable cfg s →
        ∀ pre e post, s.events = pre ++ e :: post → e.failed = true →
          post = [] ∧ ∃ c, s.status = some c ∧ c ≠ 0) ∧
    (runActions panicCfg (init panicCfg) panicSchedule = some panicState ∧
      panicState.status = none) ∧
    ¬ (∀ (cfg : Config) (s : State), Reachable cfg s → s.status = some 0 →
        ∀ e ∈ s.events, e.failed = false) ∧
    (runActions raceCfg (init raceCfg) outrunSchedule = some outrunState ∧
      outrunState.status = some 0) := by
  refine ⟨?_, ⟨by decide, rfl⟩, ?_, by decide, rfl⟩
  · intro h
    have hr : Reachable panicCfg panicState :=
      reachable_of_runActions panicCfg panicSchedule _ _ Reachable.init (by decide)
    have h2 := (h panicCfg panicState hr
      [Event.loadConfig true, Event.startWorker, Event.startWorker, Event.listPage true,
        Event.send "a.txt" 0, Event.getObject 0 "a.txt" true]
      (Event.mkdirAll 0 "." false)
      [Event.send "b.txt" 1, Event.getObject 1 "b.txt" true, Event.closeBody 0 "a.txt"]
      rfl rfl).1
    cases h2
  · intro h
    have hr : Reachable raceCfg outrunState :=
      reachable_of_runActions raceCfg outrunSchedule _ _ Reachable.init (by decide)
    have h2 := h raceCfg outrunState hr rfl (Event.mkdirAll 0 "." false) (by decide)
    revert h2
    decide

/-- C6, amended: the process exits abnormally if the Lister or any worker
signals a fatal error.  In every state the process can be in: a failed page
fetch, object-body fetch or file creation (`log.Fatal`) is the last thing that
happened and the process has ended with status 1; the worker of a failed
directory creation, chunk read with a non-EOF error or chunk write (`panic`)
is panicking; a panicking worker stays so at every step, so it processes no
further key, and when given its turn it runs its deferred calls and ends the
process with status 2, the other goroutines running on until then; the exit
status is 0 only if no call answered with `log.Fatal` has failed, and only if
no call at all has failed unless `main` returned while a worker was still
running the deferred calls of its panic; and once the process has ended no
goroutine takes a further step. -/
theorem C6_fatal_errors (cfg : Config) (s : State) (hr : Reachable cfg s) :
    (∀ pre e post, s.events = pre ++ e :: post → e.fatal = true →
      post = [] ∧ (∀ x ∈ pre, x.fatal = false) ∧ s.status = some 1) ∧
    (∀ e ∈ s.events, e.failed = true → e.fatal = false →
      ∃ i w, e.worker = some i ∧ s.workers[i]? = some w ∧ w.panicking = true) ∧
    (∀ i w, s.workers[i]? = some w → w.panicking = true →
      (∀ a s2, step cfg s a = some s2 →
        ∃ w2, s2.workers[i]? = some w2 ∧ w2.panicking = true ∧
          w2.received = w.received ∧ w2.completed = w.completed) ∧
      (s.status = none →
        ∃ s2, runActions cfg s
            (List.replicate (w.deferred.length + 1) (Action.worker i true eofRead)) = some s2 ∧
          s2.status = some 2)) ∧
    (s.status = some 0 →
      (∀ e ∈ s.events, e.fatal = false) ∧
      ((∀ e ∈ s.events, e.failed = false) ∨ s.workers.any Worker.panicking = true)) ∧
    (s.status ≠ none → ∀ a, step cfg s a = none) := by
  refine ⟨?_, panic_invariant cfg s hr, ?_, failures_of_exit_zero cfg s hr,
    fun h a => step_of_exited cfg s a h⟩
  · intro pre e post hev hf
    rcases fatal_invariant cfg s hr with h | ⟨pre2, e2, he2, hpre2, _, hc⟩
    · have : e.fatal = false := h e (by rw [hev]; simp)
      rw [hf] at this; cases this
    · rw [hev] at he2
      rcases List.eq_nil_or_concat post with hp | ⟨post2, l, hp⟩
      · subst hp
        have := List.append_inj' he2 rfl
        exact ⟨rfl, this.1 ▸ hpre2, hc⟩
      · subst hp
        have h3 : pre ++ e :: post2.concat l = (pre ++ e :: post2) ++ [l] := by simp
        rw [h3] at he2
        have := List.append_inj' he2 rfl
        have hmem : e ∈ pre2 := by rw [← this.1]; simp
        have := hpre2 e hmem
        rw [hf] at this; cases this
  · intro i w hw hp
    refine ⟨fun a s2 hstep => ?_, fun hs => ?_⟩
    · obtain ⟨w2, h1, h2, h3, h4, _⟩ := step_keeps_panicking cfg s s2 a hstep i w hw hp
      exact ⟨w2, h1, h2, h3, h4⟩
    · exact panicking_exits cfg w.deferred.length s i w hs hw hp rfl

theorem C6_fatal_errors_witness :
    Reachable raceCfg failState ∧ failState.status = some 1 ∧
    Reachable panicCfg panicState ∧
    (∃ i w, (Event.mkdirAll 0 "." false).worker = some i ∧
      panicState.workers[i]? = some w ∧ w.panicking = true) ∧
    (∃ s2, runActions panicCfg panicState
        (List.replicate 2 (Action.worker 0 true eofRead)) = some s2 ∧ s2.status = some 2) :=
  have hr : Reachable raceCfg failState :=
    reachable_of_runActions raceCfg failSchedule _ _ Reachable.init (by decide)
  have hp : Reachable panicCfg panicState :=
    reachable_of_runActions panicCfg panicSchedule _ _ Reachable.init (by decide)
  ⟨hr,
   ((C6_fatal_errors raceCfg failState hr).1
      [Event.loadConfig true, Event.startWorker, Event.listPage true, Event.send "x.txt" 0]
      (Event.getObject 0 "x.txt" false) [] rfl rfl).2.2,
   hp,
   (C6_fatal_errors panicCfg panicState hp).2.1 (Event.mkdirAll 0 "." false) (by decide) rfl rfl,
   ((C6_fatal_errors panicCfg panicState hp).2.2.1 0
      ⟨WorkerPc.panicking ["a.txt"], [Deferred.wgDone], [], [], ["a.txt"], []⟩ rfl rfl).2 rfl⟩

/-! ### What each kind of step changes -/

/-- A step of a worker leaves `main`, the channel contents and the paginator
alone, keeps the number of workers, and lists no page. -/
theorem stepWorker_frame (s s2 : State) (i : Nat) (ok : Bool) (r : ReadResult)
    (h : stepWorker s i ok r = some s2) :
    s2.mainPc = s.mainPc ∧ s2.sent = s.sent ∧ s2.pagesLeft = s.pagesLeft ∧
    s2.firstPage = s.firstPage ∧ s2.closed = s.closed ∧
    s2.workers.length = s.workers.length := by
  obtain ⟨w, m, _, _, rfl⟩ := stepWorker_spec s s2 i ok r h
  simp

theorem move_received (w : Worker) (i : Nat) (closed : Bool) (count : Nat) (ok : Bool)
    (r : ReadResult) (m : Move) (h : w.downloadStep i closed count ok r = some m) :
    m.worker.received = w.received := by
  unfold Worker.downloadStep at h
  split at h <;> (try split at h) <;> (try split at h) <;>
    simp only [Option.some.injEq, reduceCtorEq] at h <;> subst h <;> rfl

theorem move_event_not_listPage (w : Worker) (i : Nat) (closed : Bool) (count : Nat)
    (ok : Bool) (r : ReadResult) (m : Move)
    (h : w.downloadStep i closed count ok r = some m) :
    ∀ ok2, m.event ≠ some (Event.listPage ok2) := by
  unfold Worker.downloadStep at h
  split at h <;> (try split at h) <;> (try split at h) <;>
    simp only [Option.some.injEq, reduceCtorEq] at h <;> subst h <;> simp

theorem listPage_mem_of_stepWorker (s s2 : State) (i : Nat) (ok : Bool) (r : ReadResult)
    (h : stepWorker s i ok r = some s2) (ok2 : Bool)
    (hm : Event.listPage ok2 ∈ s2.events) : Event.listPage ok2 ∈ s.events := by
  obtain ⟨w, m, _, hmove, rfl⟩ := stepWorker_spec s s2 i ok r h
  simp only [List.mem_append] at hm
  rcases hm with hm | hm
  · exact hm
  · exfalso
    cases hev : m.event with
    | none => simp [hev] at hm
    | some e =>
      simp only [hev, Option.toList, List.mem_singleton] at hm
      exact move_event_not_listPage w i s.closed s.wgCount ok r m hmove ok2 (hm ▸ hev)

/-! ### The number of workers -/

theorem workers_invariant (cfg : Config) (s : State) (hr : Reachable cfg s) :
    (∀ t, s.mainPc = MainPc.spawn t →
      0 ≤ t ∧ (s.workers.length : Int) = t ∧ (t ≤ cfg.concurrency ∨ t = 0)) ∧
    ((s.mainPc = MainPc.checkBucket ∨ s.mainPc = MainPc.loadConfig) → s.workers = []) ∧
    (s.mainPc.starting = false → s.workers.length = cfg.concurrency.toNat) ∧
    (s.mainPc.starting = true → s.sent = [] ∧ ∀ ok, Event.listPage ok ∉ s.events) := by
  induction hr with
  | init => simp [init, MainPc.starting]
  | step s s2 a _ hstep ih =>
    obtain ⟨ih1, ih2, ih3, ih4⟩ := ih
    unfold step at hstep
    split at hstep
    · cases hstep
    · cases a with
      | main ok =>
        simp only [mainStep] at hstep
        split at hstep <;> (try split at hstep) <;>
          simp only [Option.some.injEq, reduceCtorEq] at hstep <;> subst hstep <;>
          simp_all [State.log, State.exit, MainPc.starting] <;> omega
      | handoff i =>
        obtain ⟨key, rest, w, hpc, _, _, _, rfl⟩ := stepHandoff_spec s s2 i hstep
        have h3 := ih3 (by rw [hpc]; rfl)
        simp [MainPc.starting, h3]
      | worker i ok r =>
        obtain ⟨hpc, hsent, _, _, _, hlen⟩ := stepWorker_frame s s2 i ok r hstep
        refine ⟨?_, ?_, ?_, ?_⟩
        · intro t ht
          rw [hpc] at ht
          rw [hlen]
          exact ih1 t ht
        · intro h
          rw [hpc] at h
          have := ih2 h
          have hl : s2.workers.length = 0 := by rw [hlen, this]; rfl
          exact List.length_eq_zero.mp hl
        · intro h
          rw [hpc] at h
          rw [hlen]
          exact ih3 h
        · intro h
          rw [hpc] at h
          refine ⟨by rw [hsent]; exact (ih4 h).1, fun ok2 hm => ?_⟩
          exact (ih4 h).2 ok2 (listPage_mem_of_stepWorker s s2 i ok r hstep ok2 hm)

theorem inFlight_le_length (s : State) : s.inFlight ≤ s.workers.length :=
  List.countP_le_length _

/-- The number of workers never exceeds `max(concurrency, 0)`. -/
theorem workers_length_le (cfg : Config) (s : State) (hr : Reachable cfg s) :
    s.workers.length ≤ cfg.concurrency.toNat := by
  obtain ⟨h1, h2, h3, _⟩ := workers_invariant cfg s hr
  cases hpc : s.mainPc with
  | checkBucket => rw [h2 (Or.inl hpc)]; exact Nat.zero_le _
  | loadConfig => rw [h2 (Or.inr hpc)]; exact Nat.zero_le _
  | spawn t =>
    obtain ⟨ht0, hlen, hc⟩ := h1 t hpc
    omega
  | hasMorePages => exact Nat.le_of_eq (h3 (by rw [hpc]; rfl))
  | nextPage => exact Nat.le_of_eq (h3 (by rw [hpc]; rfl))
  | send keys => exact Nat.le_of_eq (h3 (by rw [hpc]; rfl))
  | close => exact Nat.le_of_eq (h3 (by rw [hpc]; rfl))
  | wait => exact Nat.le_of_eq (h3 (by rw [hpc]; rfl))
  | done => exact Nat.le_of_eq (h3 (by rw [hpc]; rfl))

/-- C8, as stated, fails for a negative value of the flag: with concurrency -1
`main` has started no worker, which is not -1 workers, when it lists the first
page, and the number of downloads in flight, 0, is more than -1. -/
theorem C8_counterexample :
    ¬ (∀ (cfg : Config) (s : State), Reachable cfg s →
        (s.producing → (s.workers.length : Int) = cfg.concurrency) ∧
        (s.inFlight : Int) ≤ cfg.concurrency) := by
  intro h
  have hr : Reachable negCfg negState :=
    reachable_of_runActions negCfg negSchedule _ _ Reachable.init (by decide)
  have h2 := (h negCfg negState hr).2
  revert h2
  decide

/-- C8, amended: `main` starts exactly `max(concurrency, 0)` workers before any
key is produced (before it requests the first page of the listing and before
any key is sent), the number of workers never exceeds that, and at no point are
more than `max(concurrency, 0)` downloads in flight.  For every non-negative
value of the flag this is exactly `concurrency` workers and at most
`concurrency` downloads in flight; for a negative value no worker is started. -/
theorem C8_concurrency_bound (cfg : Config) (s : State) (hr : Reachable cfg s) :
    s.workers.length ≤ cfg.concurrency.toNat ∧
    (s.producing → s.workers.length = cfg.concurrency.toNat) ∧
    s.inFlight ≤ cfg.concurrency.toNat ∧
    (0 ≤ cfg.concurrency →
      (s.producing → (s.workers.length : Int) = cfg.concurrency) ∧
      (s.inFlight : Int) ≤ cfg.concurrency) := by
  obtain ⟨h1, h2, h3, h4⟩ := workers_invariant cfg s hr
  have hle : s.workers.length ≤ cfg.concurrency.toNat := workers_length_le cfg s hr
  have heq : s.producing → s.workers.length = cfg.concurrency.toNat := by
    intro hp
    cases hst : s.mainPc.starting with
    | false => exact h3 hst
    | true =>
      obtain ⟨hs, hl⟩ := h4 hst
      rcases hp with ⟨ok, hok⟩ | hne
      · exact absurd hok (hl ok)
      · exact absurd hs hne
  have hfl := inFlight_le_length s
  refine ⟨hle, heq, Nat.le_trans hfl hle, fun hc => ⟨fun hp => ?_, ?_⟩⟩
  · have := heq hp
    omega
  · omega

theorem C8_concurrency_bound_witness :
    Reachable leakCfg leakState ∧ leakState.workers.length = 1 ∧ leakState.inFlight ≤ 1 :=
  have hr : Reachable leakCfg leakState :=
    reachable_of_runActions leakCfg leakSchedule _ _ Reachable.init (by decide)
  ⟨hr, (C8_concurrency_bound leakCfg leakState hr).2.1 (Or.inr (by decide)),
   (C8_concurrency_bound leakCfg leakState hr).2.2.1⟩

/-! ### The wait group and the deferred calls -/

/-- C2 fails on `raceCfg`: after the schedule `raceSchedule`, `wg.Wait()` has
returned and the process has ended with status 0, the key "x.txt" was sent on
the channel and received by worker 0, and that worker has not yet called
`wg.Add(1)`: it has fetched nothing, no file was created, and no file was
written and closed. -/
theorem C2_wait_returns_early :
    runActions raceCfg (init raceCfg) raceSchedule = some raceState ∧
    raceState.status = some 0 ∧ raceState.mainPc = MainPc.done ∧
    raceState.sent = ["x.txt"] ∧
    raceState.workers = [⟨WorkerPc.add "x.txt", [], [], [], ["x.txt"], []⟩] ∧
    (∀ w ∈ raceState.workers, "x.txt" ∉ w.completed) ∧
    (∀ i ok, Event.create i "x.txt" ok ∉ raceState.events) := by
  refine ⟨by decide, rfl, rfl, rfl, rfl, by decide, ?_⟩
  intro i ok h
  simp [raceState] at h

/-- C7 fails on `leakCfg`: after the schedule `leakSchedule` worker 0 is at the
start of its second iteration, with "b.txt" just received, and still holds
open the remote stream of "a.txt", whose `Close` is deferred to the return of
`download` (line 80); the file handle of "a.txt" is closed (line 112). -/
theorem C7_body_held_across_iterations :
    runActions leakCfg (init leakCfg) leakSchedule = some leakState ∧
    leakState.workers[0]? = some ⟨WorkerPc.add "b.txt",
      [Deferred.bodyClose "a.txt", Deferred.wgDone], ["a.txt"], [], ["a.txt", "b.txt"],
      ["a.txt"]⟩ ∧
    (∀ w ∈ leakState.workers, "a.txt" ∈ w.openBodies ∧ w.openFiles = [] ∧
      w.pc = WorkerPc.add "b.txt") := by
  refine ⟨by decide, rfl, by decide⟩

/-! ### Every listed key is sent once and received by one worker -/

theorem listedKeys_cons_some (keys : List Key) (rest : List (Option (List Key))) :
    listedKeys (some keys :: rest) = keys ++ listedKeys rest := by
  simp [listedKeys]

theorem mainStep_frame (cfg : Config) (s s2 : State) (ok : Bool)
    (h : mainStep cfg s ok = some s2) :
    s2.sent = s.sent ∧
    (s2.workers = s.workers ∨ s2.workers = s.workers ++ [Worker.fresh]) := by
  simp only [mainStep] at h
  split at h <;> (try split at h) <;>
    simp only [Option.some.injEq, reduceCtorEq] at h <;> subst h <;>
    simp [State.log, State.exit]

/-- The keys sent so far, the keys of the current page still to send and the
keys of the pages still to list make up the listing, in order. -/
theorem listing_invariant (cfg : Config) (hl : ∀ page ∈ cfg.listing, page ≠ none)
    (s : State) (hr : Reachable cfg s) :
    s.sent ++ s.mainPc.pending ++ listedKeys s.pagesLeft = listedKeys cfg.listing ∧
    (∀ page ∈ s.pagesLeft, page ≠ none) ∧
    (s.mainPc.pastListing = true → s.pagesLeft = []) := by
  induction hr with
  | init => simpa [init, MainPc.pending, MainPc.pastListing] using hl
  | step s s2 a _ hstep ih =>
    obtain ⟨ih1, ih2, ih3⟩ := ih
    unfold step at hstep
    split at hstep
    · cases hstep
    · cases a with
      | main ok =>
        simp only [mainStep] at hstep
        split at hstep
        · split at hstep <;> simp only [Option.some.injEq] at hstep <;> subst hstep <;>
            simp_all [State.exit, MainPc.pending, MainPc.pastListing]
        · split at hstep <;> simp only [Option.some.injEq] at hstep <;> subst hstep <;>
            simp_all [State.exit, State.log, MainPc.pending, MainPc.pastListing]
        · split at hstep <;> simp only [Option.some.injEq] at hstep <;> subst hstep <;>
            simp_all [State.exit, State.log, MainPc.pending, MainPc.pastListing]
        · split at hstep
          · simp only [Option.some.injEq] at hstep; subst hstep
            simp_all [MainPc.pending, MainPc.pastListing]
          · rename_i hmore
            simp only [Option.some.injEq] at hstep; subst hstep
            simp only [State.hasMorePages, Bool.or_eq_true, Bool.not_eq_true, not_or,
              Bool.not_eq_true', Bool.not_eq_false, List.isEmpty_iff] at hmore
            simp_all [MainPc.pending, MainPc.pastListing]
        · rename_i hpc
          split at hstep
          · simp only [Option.some.injEq] at hstep; subst hstep
            simp_all [State.exit, State.log, MainPc.pending, MainPc.pastListing]
          · rename_i keys hans
            simp only [Option.some.injEq] at hstep; subst hstep
            simp only [State.pageAnswer] at hans
            split at hans
            · rename_i hpl
              simp only [Option.some.injEq] at hans; subst hans
              simp_all [State.log, MainPc.pending, MainPc.pastListing]
            · rename_i page rest hpl
              subst hans
              rw [hpl, listedKeys_cons_some] at ih1
              rw [hpl] at ih2
              simp only [hpc, MainPc.pending, List.append_nil] at ih1
              refine ⟨?_, ?_, ?_⟩
              · simpa [State.log, MainPc.pending, hpl] using ih1
              · intro p hp
                apply ih2
                simp only [State.log, hpl, List.tail_cons] at hp
                exact List.mem_cons_of_mem _ hp
              · simp [State.log, MainPc.pastListing]
        · simp only [Option.some.injEq] at hstep; subst hstep
          simp_all [MainPc.pending, MainPc.pastListing]
        · cases hstep
        · simp only [Option.some.injEq] at hstep; subst hstep
          simp_all [MainPc.pending, MainPc.pastListing]
        · split at hstep
          · simp only [Option.some.injEq] at hstep; subst hstep
            simp_all [State.exit, MainPc.pending, MainPc.pastListing]
          · cases hstep
        · cases hstep
      | handoff i =>
        obtain ⟨key, rest, w, hpc, _, _, _, rfl⟩ := stepHandoff_spec s s2 i hstep
        rw [hpc] at ih1 ih3
        simp only [MainPc.pending] at ih1
        refine ⟨?_, ih2, ?_⟩
        · simpa [MainPc.pending] using ih1
        · simp [MainPc.pastListing]
      | worker i ok r =>
        obtain ⟨hpc, hsent, hpl, _, _, _⟩ := stepWorker_frame s s2 i ok r hstep
        rw [hpc, hsent, hpl]
        exact ⟨ih1, ih2, ih3⟩

theorem map_set_of_eq {α β : Type} (f : α → β) (ws : List α) :
    ∀ (i : Nat) (w w2 : α), ws[i]? = some w → f w2 = f w → (ws.set i w2).map f = ws.map f := by
  induction ws with
  | nil => intro i w w2 h; simp at h
  | cons a t ih =>
    intro i w w2 h hf
    cases i with
    | zero =>
      simp only [List.getElem?_cons_zero, Option.some.injEq] at h
      subst h
      simp [hf]
    | succ n =>
      simp only [List.getElem?_cons_succ] at h
      simp only [List.set_cons_succ, List.map_cons, ih n w w2 h hf]

theorem perm_flatten_set (ws : List Worker) :
    ∀ (i : Nat) (w w2 : Worker) (key : Key), ws[i]? = some w →
      w2.received = w.received ++ [key] →
      (((ws.set i w2).map Worker.received).flatten).Perm
        ((ws.map Worker.received).flatten ++ [key]) := by
  induction ws with
  | nil => intro i w w2 key h; simp at h
  | cons a t ih =>
    intro i w w2 key h hf
    cases i with
    | zero =>
      simp only [List.getElem?_cons_zero, Option.some.injEq] at h
      subst h
      simp only [List.set_cons_zero, List.map_cons, List.flatten_cons, hf,
        List.append_assoc]
      exact List.Perm.append_left _ List.perm_append_comm
    | succ n =>
      simp only [List.getElem?_cons_succ] at h
      simp only [List.set_cons_succ, List.map_cons, List.flatten_cons, List.append_assoc]
      exact List.Perm.append_left _ (ih n w w2 key h hf)

/-- The keys the workers have received are, counted with multiplicity, the keys
sent on the channel. -/
theorem received_perm_sent (cfg : Config) (s : State) (hr : Reachable cfg s) :
    s.received.Perm s.sent := by
  induction hr with
  | init => simp [init, State.received]
  | step s s2 a _ hstep ih =>
    unfold step at hstep
    split at hstep
    · cases hstep
    · cases a with
      | main ok =>
        obtain ⟨hsent, hw | hw⟩ := mainStep_frame cfg s s2 ok hstep
        · simpa [State.received, hsent, hw] using ih
        · simpa [State.received, hsent, hw, Worker.fresh] using ih
      | handoff i =>
        obtain ⟨key, rest, w, _, hw, _, _, rfl⟩ := stepHandoff_spec s s2 i hstep
        exact (perm_flatten_set s.workers i w _ key hw rfl).trans (List.Perm.append_right _ ih)
      | worker i ok r =>
        obtain ⟨w, m, hw, hmove, rfl⟩ := stepWorker_spec s s2 i ok r hstep
        have := map_set_of_eq Worker.received s.workers i w m.worker hw
          (move_received w i s.closed s.wgCount ok r m hmove)
        simpa [State.received, this] using ih

theorem move_progress (w : Worker) (i : Nat) (closed : Bool) (count : Nat) (ok : Bool)
    (r : ReadResult) (m : Move) (h : w.downloadStep i closed count ok r = some m)
    (hw : w.received = w.completed ++ w.pc.current) :
    m.worker.received = m.worker.completed ++ m.worker.pc.current := by
  unfold Worker.downloadStep at h
  split at h <;> (try split at h) <;> (try split at h) <;>
    simp only [Option.some.injEq, reduceCtorEq] at h <;> subst h <;>
    simp_all [WorkerPc.current]

/-- Each worker has written and closed the file of every key it received, in
the order of receipt and once each, except for the key it is working on. -/
theorem completed_invariant (cfg : Config) (s : State) (hr : Reachable cfg s) :
    ∀ w ∈ s.workers, w.received = w.completed ++ w.pc.current := by
  induction hr with
  | init => simp [init]
  | step s s2 a _ hstep ih =>
    unfold step at hstep
    split at hstep
    · cases hstep
    · cases a with
      | main ok =>
        obtain ⟨_, hw | hw⟩ := mainStep_frame cfg s s2 ok hstep
        · rw [hw]; exact ih
        · rw [hw]
          intro w hmem
          rcases List.mem_append.mp hmem with h | h
          · exact ih w h
          · rw [List.mem_singleton.mp h]; rfl
      | handoff i =>
        obtain ⟨key, rest, w, _, hw, hrecv, _, rfl⟩ := stepHandoff_spec s s2 i hstep
        intro x hmem
        rcases List.mem_or_eq_of_mem_set hmem with h | h
        · exact ih x h
        · subst h
          have := ih w (List.getElem?_mem hw)
          simp only [hrecv, WorkerPc.current, List.append_nil] at this
          simp [WorkerPc.current, this]
      | worker i ok r =>
        obtain ⟨w, m, hw, hmove, rfl⟩ := stepWorker_spec s s2 i ok r hstep
        intro x hmem
        rcases List.mem_or_eq_of_mem_set hmem with h | h
        · exact ih x h
        · subst h
          exact move_progress w i s.closed s.wgCount ok r m hmove
            (ih w (List.getElem?_mem hw))

/-- With no worker, no key is ever sent. -/
theorem sent_nil_of_no_worker (cfg : Config) (hc : cfg.concurrency ≤ 0) (s : State)
    (hr : Reachable cfg s) : s.sent = [] ∧ s.workers = [] := by
  have hw : ∀ s, Reachable cfg s → s.workers = [] := by
    intro s hr
    have := (workers_length_le cfg s hr)
    have h0 : cfg.concurrency.toNat = 0 := by omega
    rw [h0] at this
    exact List.length_eq_zero.mp (Nat.le_zero.mp this)
  refine ⟨?_, hw s hr⟩
  induction hr with
  | init => rfl
  | step s s2 a hr1 hstep ih =>
    unfold step at hstep
    split at hstep
    · cases hstep
    · cases a with
      | main ok => rw [(mainStep_frame cfg s s2 ok hstep).1]; exact ih
      | handoff i =>
        obtain ⟨key, rest, w, _, hwi, _⟩ := stepHandoff_spec s s2 i hstep
        rw [hw s hr1] at hwi
        simp at hwi
      | worker i ok r =>
        rw [(stepWorker_frame s s2 i ok r hstep).2.1]; exact ih

/-! ### A run in which nothing fails -/

theorem keyBlock_run (cfg : Config) (key : Key) (keys : List Key) (fp : Bool)
    (pl : List (Option (List Key))) (count : Nat) (d : List Deferred) (ob rcv cmp : List Key)
    (rest : List Worker) (sent : List Key) (ev : List Event) :
    ∃ ev2 ob2, runActions cfg
      ⟨MainPc.send (key :: keys), fp, pl, false, count,
        ⟨WorkerPc.recv, d, ob, [], rcv, cmp⟩ :: rest, sent, ev, none⟩ keyBlock =
      some ⟨MainPc.send keys, fp, pl, false, count + 1,
        ⟨WorkerPc.recv, Deferred.bodyClose key :: Deferred.wgDone :: d, ob2, [],
          rcv ++ [key], cmp ++ [key]⟩ :: rest, sent ++ [key], ev2, none⟩ := by
  refine ⟨ev ++ [Event.send key 0, Event.getObject 0 key true,
    Event.mkdirAll 0 (pathDir key) true, Event.create 0 key true,
    Event.read 0 key eofRead, Event.closeFile 0 key], key :: ob, ?_⟩
  simp [keyBlock, runActions, step, stepHandoff, stepWorker, Worker.downloadStep, wgApply,
    State.setWorker, State.log, eofRead, afterRead]

theorem keysBlock_run (cfg : Config) (fp : Bool) (pl : List (Option (List Key)))
    (rest : List Worker) (keys : List Key) :
    ∀ (count : Nat) (dr ob rcv cmp sent : List Key) (ev : List Event),
    ∃ ev2 ob2, runActions cfg
      ⟨MainPc.send keys, fp, pl, false, count,
        ⟨WorkerPc.recv, deferredAfter dr, ob, [], rcv, cmp⟩ :: rest, sent, ev, none⟩
      (keysBlock keys) =
      some ⟨MainPc.send [], fp, pl, false, count + keys.length,
        ⟨WorkerPc.recv, deferredAfter (keys.reverse ++ dr), ob2, [],
          rcv ++ keys, cmp ++ keys⟩ :: rest, sent ++ keys, ev2, none⟩ := by
  induction keys with
  | nil =>
    intro count dr ob rcv cmp sent ev
    exact ⟨ev, ob, by simp [keysBlock, runActions]⟩
  | cons key keys ih =>
    intro count dr ob rcv cmp sent ev
    obtain ⟨ev1, ob1, h1⟩ := keyBlock_run cfg key keys fp pl count (deferredAfter dr) ob rcv cmp
      rest sent ev
    obtain ⟨ev2, ob2, h2⟩ := ih (count + 1) (key :: dr) ob1 (rcv ++ [key]) (cmp ++ [key])
      (sent ++ [key]) ev1
    refine ⟨ev2, ob2, ?_⟩
    rw [keysBlock, runActions_append cfg _ _ _ _ h1]
    simp only [deferredAfter] at h2
    rw [h2]
    simp [Nat.add_assoc, Nat.add_comm 1]

theorem pageBlock_run (cfg : Config) (fp : Bool) (pl : List (Option (List Key)))
    (rest : List Worker) (keys : List Key) (count : Nat) (dr ob rcv cmp sent : List Key)
    (ev : List Event) :
    ∃ ev2 ob2, runActions cfg
      ⟨MainPc.hasMorePages, fp, some keys :: pl, false, count,
        ⟨WorkerPc.recv, deferredAfter dr, ob, [], rcv, cmp⟩ :: rest, sent, ev, none⟩
      (pageBlock keys) =
      some ⟨MainPc.hasMorePages, false, pl, false, count + keys.length,
        ⟨WorkerPc.recv, deferredAfter (keys.reverse ++ dr), ob2, [],
          rcv ++ keys, cmp ++ keys⟩ :: rest, sent ++ keys, ev2, none⟩ := by
  obtain ⟨ev2, ob2, h2⟩ := keysBlock_run cfg false pl rest keys count dr ob rcv cmp sent
    (ev ++ [Event.listPage true])
  refine ⟨ev2, ob2, ?_⟩
  have h1 : runActions cfg
      ⟨MainPc.hasMorePages, fp, some keys :: pl, false, count,
        ⟨WorkerPc.recv, deferredAfter dr, ob, [], rcv, cmp⟩ :: rest, sent, ev, none⟩
      [Action.main true, Action.main true] =
      some ⟨MainPc.send keys, false, pl, false, count,
        ⟨WorkerPc.recv, deferredAfter dr, ob, [], rcv, cmp⟩ :: rest, sent,
        ev ++ [Event.listPage true], none⟩ := by
    simp [runActions, step, mainStep, State.hasMorePages, State.pageAnswer, State.log]
  rw [pageBlock, List.append_assoc, runActions_append cfg _ _ _ _ h1,
    runActions_append cfg _ _ _ _ h2]
  simp [runActions, step, mainStep]

theorem pagesBlock_run (cfg : Config) (rest : List Worker) (pages : List (List Key)) :
    ∀ (fp : Bool) (count : Nat) (dr ob rcv cmp sent : List Key) (ev : List Event),
    ∃ ev2 ob2, runActions cfg
      ⟨MainPc.hasMorePages, fp, pages.map some, false, count,
        ⟨WorkerPc.recv, deferredAfter dr, ob, [], rcv, cmp⟩ :: rest, sent, ev, none⟩
      (pagesBlock pages) =
      some ⟨MainPc.hasMorePages, fp && pages.isEmpty, [], false, count + pages.flatten.length,
        ⟨WorkerPc.recv, deferredAfter (pages.flatten.reverse ++ dr), ob2, [],
          rcv ++ pages.flatten, cmp ++ pages.flatten⟩ :: rest, sent ++ pages.flatten,
        ev2, none⟩ := by
  induction pages with
  | nil =>
    intro fp count dr ob rcv cmp sent ev
    exact ⟨ev, ob, by simp [pagesBlock, runActions]⟩
  | cons keys pages ih =>
    intro fp count dr ob rcv cmp sent ev
    obtain ⟨ev1, ob1, h1⟩ := pageBlock_run cfg fp (pages.map some) rest keys count dr ob rcv
      cmp sent ev
    obtain ⟨ev2, ob2, h2⟩ := ih false (count + keys.length) (keys.reverse ++ dr) ob1
      (rcv ++ keys) (cmp ++ keys) (sent ++ keys) ev1
    refine ⟨ev2, ob2, ?_⟩
    rw [pagesBlock, List.map_cons, runActions_append cfg _ _ _ _ h1, h2]
    simp [Nat.add_assoc]

theorem unwindBlock_run (cfg : Config) (rest : List Worker) (rcv cmp sent : List Key)
    (dr : List Key) :
    ∀ (ob : List Key) (ev : List Event),
    ∃ ev2 ob2, runActions cfg
      ⟨MainPc.wait, false, [], true, dr.length,
        ⟨WorkerPc.returning, deferredAfter dr, ob, [], rcv, cmp⟩ :: rest, sent, ev, none⟩
      (unwindBlock dr) =
      some ⟨MainPc.wait, false, [], true, 0,
        ⟨WorkerPc.returning, [], ob2, [], rcv, cmp⟩ :: rest, sent, ev2, none⟩ := by
  induction dr with
  | nil =>
    intro ob ev
    exact ⟨ev, ob, by simp [unwindBlock, runActions, deferredAfter]⟩
  | cons key dr ih =>
    intro ob ev
    obtain ⟨ev2, ob2, h2⟩ := ih (ob.erase key) (ev ++ [Event.closeBody 0 key])
    refine ⟨ev2, ob2, ?_⟩
    simp only [unwindBlock, deferredAfter, List.length_cons]
    simpa [runActions, step, stepWorker, Worker.downloadStep, wgApply] using h2

theorem spawn_run (cfg : Config) (pl : List (Option (List Key))) (k : Nat) :
    ∀ (t : Int) (ws : List Worker) (ev : List Event), t + k = cfg.concurrency →
    ∃ ev2, runActions cfg ⟨MainPc.spawn t, true, pl, false, 0, ws, [], ev, none⟩
      (List.replicate (k + 1) (Action.main true)) =
      some ⟨MainPc.hasMorePages, true, pl, false, 0,
        ws ++ List.replicate k Worker.fresh, [], ev2, none⟩ := by
  induction k with
  | zero =>
    intro t ws ev ht
    have hlt : ¬ t < cfg.concurrency := by omega
    exact ⟨ev, by simp [runActions, step, mainStep, hlt]⟩
  | succ k ih =>
    intro t ws ev ht
    have hlt : t < cfg.concurrency := by omega
    obtain ⟨ev2, h2⟩ := ih (t + 1) (ws ++ [Worker.fresh]) (ev ++ [Event.startWorker])
      (by omega)
    refine ⟨ev2, ?_⟩
    rw [List.replicate_succ, runActions]
    simp only [step, mainStep, hlt, State.log, if_true]
    simpa [List.replicate_succ] using h2

theorem exists_pages (listing : List (Option (List Key)))
    (hl : ∀ page ∈ listing, page ≠ none) :
    ∃ pages : List (List Key), listing = pages.map some ∧ listedKeys listing = pages.flatten := by
  induction listing with
  | nil => exact ⟨[], rfl, rfl⟩
  | cons page rest ih =>
    obtain ⟨pages, hp, hk⟩ := ih (fun x hx => hl x (List.mem_cons_of_mem _ hx))
    cases page with
    | none => exact absurd rfl (hl none (List.mem_cons_self _ _))
    | some keys =>
      refine ⟨keys :: pages, by rw [hp]; rfl, ?_⟩
      rw [listedKeys_cons_some, hk]
      rfl

/-- With a bucket, at least one worker, and a listing whose page requests
succeed, the process has a run in which nothing fails: it ends with status 0
after every listed key was sent, in order, and its file written and closed. -/
theorem exists_complete_run (cfg : Config) (hb : cfg.bucket ≠ "")
    (hc : 1 ≤ cfg.concurrency) (hl : ∀ page ∈ cfg.listing, page ≠ none) :
    ∃ acts s, runActions cfg (init cfg) acts = some s ∧ s.status = some 0 ∧
      s.sent = listedKeys cfg.listing ∧ s.completed = listedKeys cfg.listing ∧
      s.received = listedKeys cfg.listing := by
  obtain ⟨pages, hpages, hkeys⟩ := exists_pages cfg.listing hl
  obtain ⟨m, hm⟩ : ∃ m : Nat, cfg.concurrency = ((m + 1 : Nat) : Int) :=
    ⟨cfg.concurrency.toNat - 1, by omega⟩
  have h1 : runActions cfg (init cfg) [Action.main true, Action.main true] =
      some ⟨MainPc.spawn 0, true, cfg.listing, false, 0, [], [], [Event.loadConfig true],
        none⟩ := by
    simp [runActions, step, mainStep, init, hb, State.log]
  obtain ⟨ev2, h2⟩ := spawn_run cfg cfg.listing (m + 1) 0 [] [Event.loadConfig true]
    (by omega)
  have hws : ([] : List Worker) ++ List.replicate (m + 1) Worker.fresh =
      ⟨WorkerPc.recv, deferredAfter [], [], [], [], []⟩ :: List.replicate m Worker.fresh := by
    simp [List.replicate_succ, Worker.fresh, deferredAfter]
  rw [hws, hpages] at h2
  have h3 : ∃ ev3 ob3, runActions cfg
      ⟨MainPc.hasMorePages, true, pages.map some, false, 0,
        ⟨WorkerPc.recv, deferredAfter [], [], [], [], []⟩ :: List.replicate m Worker.fresh,
        [], ev2, none⟩
      (if pages.isEmpty then pageBlock [] else pagesBlock pages) =
      some ⟨MainPc.hasMorePages, false, [], false, pages.flatten.reverse.length,
        ⟨WorkerPc.recv, deferredAfter pages.flatten.reverse, ob3, [],
          pages.flatten, pages.flatten⟩ :: List.replicate m Worker.fresh, pages.flatten,
        ev3, none⟩ := by
    cases pages with
    | nil =>
      refine ⟨ev2 ++ [Event.listPage true], [], ?_⟩
      simp [pageBlock, keysBlock, runActions, step, mainStep, State.hasMorePages,
        State.pageAnswer, State.log, deferredAfter]
    | cons keys rest =>
      obtain ⟨ev3, ob3, h⟩ := pagesBlock_run cfg (List.replicate m Worker.fresh)
        (keys :: rest) true 0 [] [] [] [] [] ev2
      refine ⟨ev3, ob3, ?_⟩
      simpa [Nat.add_comm] using h
  obtain ⟨ev3, ob3, h3⟩ := h3
  have h4 : runActions cfg
      ⟨MainPc.hasMorePages, false, [], false, pages.flatten.reverse.length,
        ⟨WorkerPc.recv, deferredAfter pages.flatten.reverse, ob3, [],
          pages.flatten, pages.flatten⟩ :: List.replicate m Worker.fresh, pages.flatten,
        ev3, none⟩
      [Action.main true, Action.main true, Action.worker 0 true eofRead] =
      some ⟨MainPc.wait, false, [], true, pages.flatten.reverse.length,
        ⟨WorkerPc.returning, deferredAfter pages.flatten.reverse, ob3, [],
          pages.flatten, pages.flatten⟩ :: List.replicate m Worker.fresh, pages.flatten,
        ev3, none⟩ := by
    simp [runActions, step, mainStep, stepWorker, Worker.downloadStep, wgApply, State.hasMorePages]
  obtain ⟨ev5, ob5, h5⟩ := unwindBlock_run cfg (List.replicate m Worker.fresh) pages.flatten
    pages.flatten pages.flatten pages.flatten.reverse ob3 ev3
  refine ⟨happySchedule (m + 1) pages,
    ⟨MainPc.done, false, [], true, 0,
      ⟨WorkerPc.returning, [], ob5, [], pages.flatten, pages.flatten⟩ ::
        List.replicate m Worker.fresh, pages.flatten, ev5, some 0⟩, ?_, rfl, ?_, ?_, ?_⟩
  · rw [happySchedule, runActions_append cfg _ _ _ _ h1, hpages,
      runActions_append cfg _ _ _ _ h2, runActions_append cfg _ _ _ _ h3,
      runActions_append cfg _ _ _ _ h4, runActions_append cfg _ _ _ _ h5]
    simp [runActions, step, mainStep, State.exit]
  · exact hkeys.symm
  · simp [State.completed, hkeys, Worker.fresh]
  · simp [State.received, hkeys, Worker.fresh]

/-! ### No deadlock while `main` is listing -/

theorem move_pc_closed (w : Worker) (i : Nat) (closed : Bool) (count : Nat) (ok : Bool)
    (r : ReadResult) (m : Move) (h : w.downloadStep i closed count ok r = some m)
    (hw : closed = false → w.pc ≠ WorkerPc.returning ∧ w.pc ≠ WorkerPc.finished) :
    closed = false → m.worker.pc ≠ WorkerPc.returning ∧ m.worker.pc ≠ WorkerPc.finished := by
  intro hc
  have hw2 := hw hc
  unfold Worker.downloadStep at h
  split at h <;> (try split at h) <;> (try split at h) <;>
    simp only [Option.some.injEq, reduceCtorEq] at h <;> subst h <;>
    simp_all

/-- While the channel is open no worker has left its loop, and the channel is
closed only once `main` has left the listing loop. -/
theorem closed_invariant (cfg : Config) (s : State) (hr : Reachable cfg s) :
    (s.closed = false →
      ∀ w ∈ s.workers, w.pc ≠ WorkerPc.returning ∧ w.pc ≠ WorkerPc.finished) ∧
    (s.mainPc.pastListing = false → s.closed = false) := by
  induction hr with
  | init => simp [init]
  | step s s2 a _ hstep ih =>
    obtain ⟨ih1, ih2⟩ := ih
    unfold step at hstep
    split at hstep
    · cases hstep
    · cases a with
      | main ok =>
        simp only [mainStep] at hstep
        split at hstep <;> (try split at hstep) <;>
          simp only [Option.some.injEq, reduceCtorEq] at hstep <;> subst hstep <;>
          simp_all [State.log, State.exit, MainPc.pastListing, Worker.fresh]
        all_goals (intro w hw; rcases hw with hw | hw <;> simp_all)
      | handoff i =>
        obtain ⟨key, rest, w, hpc, hw, _, hcl, rfl⟩ := stepHandoff_spec s s2 i hstep
        refine ⟨fun _ x hmem => ?_, fun _ => hcl⟩
        rcases List.mem_or_eq_of_mem_set hmem with h | h
        · exact ih1 hcl x h
        · subst h; simp
      | worker i ok r =>
        obtain ⟨hpc, _, _, _, hclosed, _⟩ := stepWorker_frame s s2 i ok r hstep
        obtain ⟨w, m, hw, hmove, hcase⟩ := stepWorker_spec s s2 i ok r hstep
        rw [hpc, hclosed]
        refine ⟨fun hcl x hmem => ?_, ih2⟩
        subst hcase
        rcases List.mem_or_eq_of_mem_set hmem with h | h
        · exact ih1 hcl x h
        · subst h
          exact move_pc_closed w i s.closed s.wgCount ok r m hmove
            (fun hc => ih1 hc w (List.getElem?_mem hw)) hcl

theorem stepWorker_enabled (s : State) (i : Nat) (w : Worker) (hw : s.workers[i]? = some w)
    (h1 : w.pc ≠ WorkerPc.recv) (h2 : w.pc ≠ WorkerPc.finished) :
    ∃ s2, stepWorker s i true eofRead = some s2 := by
  have hm : ∃ m, w.downloadStep i s.closed s.wgCount true eofRead = some m := by
    unfold Worker.downloadStep
    split <;> simp_all [eofRead, afterRead]
    all_goals (split <;> (try split) <;> simp)
  obtain ⟨m, hm⟩ := hm
  simp [stepWorker, hw, hm]

/-- With at least one worker, the process is never stuck while `main` is
listing: as long as it has not ended and `main` has not left the listing loop,
some goroutine can take a step. -/
theorem listing_not_stuck (cfg : Config) (hc : 1 ≤ cfg.concurrency) (s : State)
    (hr : Reachable cfg s) (hs : s.status = none) (hp : s.mainPc.pastListing = false) :
    ∃ a s2, step cfg s a = some s2 := by
  have hstep : ∀ a, step cfg s a =
      match a with
      | Action.main ok => mainStep cfg s ok
      | Action.handoff i => stepHandoff s i
      | Action.worker i ok r => stepWorker s i ok r := by
    intro a
    simp [step, hs]
  cases hpc : s.mainPc with
  | checkBucket =>
    refine ⟨Action.main true, ?_⟩
    rw [hstep]
    simp only [mainStep, hpc]
    split <;> simp
  | loadConfig => exact ⟨Action.main true, by rw [hstep]; simp [mainStep, hpc]⟩
  | spawn t =>
    refine ⟨Action.main true, ?_⟩
    rw [hstep]
    simp only [mainStep, hpc]
    split <;> simp
  | hasMorePages =>
    refine ⟨Action.main true, ?_⟩
    rw [hstep]
    simp only [mainStep, hpc]
    split <;> simp
  | nextPage =>
    refine ⟨Action.main true, ?_⟩
    rw [hstep]
    simp only [mainStep, hpc]
    split <;> simp
  | close => rw [hpc] at hp; cases hp
  | wait => rw [hpc] at hp; cases hp
  | done => rw [hpc] at hp; cases hp
  | send keys =>
    cases keys with
    | nil => exact ⟨Action.main true, by rw [hstep]; simp [mainStep, hpc]⟩
    | cons key rest =>
      have hlen := (workers_invariant cfg s hr).2.2.1 (by rw [hpc]; rfl)
      have hclosed := (closed_invariant cfg s hr).2 hp
      have hpos : 0 < s.workers.length := by omega
      obtain ⟨w, hw⟩ : ∃ w, s.workers[0]? = some w :=
        ⟨s.workers[0], List.getElem?_eq_getElem hpos⟩
      by_cases hrecv : w.pc = WorkerPc.recv
      · refine ⟨Action.handoff 0, ?_⟩
        rw [hstep]
        simp [stepHandoff, hpc, hw, hrecv, hclosed]
      · have hfin := ((closed_invariant cfg s hr).1 hclosed w (List.getElem?_mem hw)).2
        obtain ⟨s2, h2⟩ := stepWorker_enabled s 0 w hw hrecv hfin
        exact ⟨Action.worker 0 true eofRead, s2, by rw [hstep]; exact h2⟩

/-! ### The keys processed are the keys listed -/

/-- C3, as stated, fails when no worker is started: with the concurrency flag
at 0 and a listing of one page with the key "x.txt", every page request
succeeds, yet no run ever sends the listed keys; `main` reaches the send of
"x.txt" and the process is stuck there, no goroutine being able to take a
step. -/
theorem C3_counterexample :
    ¬ (∀ cfg : Config, (∀ page ∈ cfg.listing, page ≠ none) →
        ∃ s, Reachable cfg s ∧ s.sent = listedKeys cfg.listing) ∧
    (Reachable stuckCfg negState ∧ negState.mainPc = MainPc.send ["x.txt"] ∧
      ∀ a, step stuckCfg negState a = none) := by
  refine ⟨?_, ?_, rfl, ?_⟩
  · intro h
    obtain ⟨s, hr, hs⟩ := h stuckCfg (by decide)
    have := (sent_nil_of_no_worker stuckCfg (by decide) s hr).1
    rw [this] at hs
    revert hs
    decide
  · exact reachable_of_runActions stuckCfg negSchedule _ _ Reachable.init (by decide)
  · intro a
    cases a with
    | main ok => rfl
    | handoff i => simp [step, stepHandoff, negState]
    | worker i ok r => simp [step, stepWorker, negState]

/-- C3, amended: for every bucket and prefix whose listing succeeds on every
page, in every run and at every moment: the keys sent on the channel so far,
followed by the keys `main` has still to send, are the concatenation of the
keys of all pages, in page order and in in-page order, so that `main` has sent
exactly that concatenation, each entry once, when it leaves the listing loop;
the keys received by the workers are, counted with multiplicity, the keys
sent, each by one worker; and every worker has written and closed the files of
the keys it received, in order and once each, up to the key it is working on.
When the concurrency flag is at least 1, the process is never stuck while
`main` is listing, and when the bucket flag is set as well, there is a run in
which nothing fails and which ends with status 0 after every listed key was
sent, received and downloaded. -/
theorem C3_keys_sent_once (cfg : Config) (hl : ∀ page ∈ cfg.listing, page ≠ none) :
    (∀ s, Reachable cfg s →
      s.sent ++ s.mainPc.pending ++ listedKeys s.pagesLeft = listedKeys cfg.listing ∧
      (s.mainPc.pastListing = true → s.sent = listedKeys cfg.listing) ∧
      s.received.Perm s.sent ∧
      (∀ w ∈ s.workers, w.received = w.completed ++ w.pc.current)) ∧
    (1 ≤ cfg.concurrency → ∀ s, Reachable cfg s → s.status = none →
      s.mainPc.pastListing = false → ∃ a s2, step cfg s a = some s2) ∧
    (cfg.bucket ≠ "" → 1 ≤ cfg.concurrency →
      ∃ acts s, runActions cfg (init cfg) acts = some s ∧ s.status = some 0 ∧
        s.sent = listedKeys cfg.listing ∧ s.completed = listedKeys cfg.listing ∧
        s.received = listedKeys cfg.listing) := by
  refine ⟨fun s hr => ?_, fun hc s hr hs hp => listing_not_stuck cfg hc s hr hs hp,
    fun hb hc => exists_complete_run cfg hb hc hl⟩
  obtain ⟨h1, _, h3⟩ := listing_invariant cfg hl s hr
  refine ⟨h1, fun hp => ?_, received_perm_sent cfg s hr, completed_invariant cfg s hr⟩
  have hpl := h3 hp
  have hpend : s.mainPc.pending = [] := by
    cases hpc : s.mainPc <;> simp_all [MainPc.pending, MainPc.pastListing]
  rw [hpl, hpend] at h1
  simpa [listedKeys] using h1

theorem C3_keys_sent_once_witness :
    Reachable leakCfg leakState ∧
    leakState.sent ++ leakState.mainPc.pending ++ listedKeys leakState.pagesLeft =
      ["a.txt", "b.txt"] ∧
    leakState.received.Perm leakState.sent ∧
    (∃ acts s, runActions leakCfg (init leakCfg) acts = some s ∧ s.status = some 0 ∧
        s.sent = listedKeys leakCfg.listing ∧ s.completed = listedKeys leakCfg.listing ∧
        s.received = listedKeys leakCfg.listing) :=
  have hr : Reachable leakCfg leakState :=
    reachable_of_runActions leakCfg leakSchedule _ _ Reachable.init (by decide)
  have h := C3_keys_sent_once leakCfg (by decide)
  ⟨hr, (h.1 leakState hr).1, (h.1 leakState hr).2.2.1, h.2.2 (by decide) (by decide)⟩

/-! ### The local files of a run -/

theorem diskAfter_append (fs : FileSystem) (events : List Event) (o : Option Event) :
    diskAfter fs (events ++ o.toList) =
      match o with
      | none => diskAfter fs events
      | some e => (diskAfter fs events).apply e := by
  cases o <;> simp [diskAfter, List.foldl_append]

theorem taskReads_append (i : Nat) (events : List Event) (o : Option Event) :
    taskReads i (events ++ o.toList) =
      match o with
      | none => taskReads i events
      | some e => readsApply i (taskReads i events) e := by
  cases o <;> simp [taskReads, List.foldl_append]

theorem apply_of_not_copies (d : Disk) (e : Event) (h : e.copies = false) : d.apply e = d := by
  cases e <;> first | rfl | (rename_i ok; cases ok <;> first | rfl | simp [Event.copies] at h)

theorem readsApply_of_not_copies (i : Nat) (acc : List Byte) (e : Event)
    (h : e.copies = false) : readsApply i acc e = acc := by
  cases e with
  | create j path ok =>
    cases ok with
    | true => simp [Event.copies] at h
    | false => rfl
  | read j key r => simp [Event.copies] at h
  | _ => rfl

theorem diskAfter_quiet (fs : FileSystem) (events : List Event) (o : Option Event)
    (h : ∀ e, o = some e → e.copies = false) :
    diskAfter fs (events ++ o.toList) = diskAfter fs events := by
  rw [diskAfter_append]
  cases o with
  | none => rfl
  | some e => exact apply_of_not_copies _ e (h e rfl)

theorem taskReads_quiet (i : Nat) (events : List Event) (o : Option Event)
    (h : ∀ e, o = some e → e.copies = false) :
    taskReads i (events ++ o.toList) = taskReads i events := by
  rw [taskReads_append]
  cases o with
  | none => rfl
  | some e => exact readsApply_of_not_copies i _ e (h e rfl)

theorem writeAt_end (pre chunk : List Byte) : writeAt pre pre.length chunk = pre ++ chunk := by
  simp [writeAt]

theorem deliversAll_prefix (content : Key → List Byte) (events tl : List Event)
    (h : DeliversAll content (events ++ tl)) : DeliversAll content events := by
  intro n hn
  have h2 := h n (by simp; omega)
  unfold deliversAt at h2 ⊢
  rw [List.getElem?_append_left hn] at h2
  rw [List.take_append_of_le_length (Nat.le_of_lt hn)] at h2
  exact h2

theorem deliversAll_closeFile (content : Key → List Byte) (events : List Event) (i : Nat)
    (key : Key) (h : DeliversAll content (events ++ [Event.closeFile i key])) :
    taskReads i events = content key := by
  have h2 := h events.length (by simp)
  unfold deliversAt at h2
  simpa using h2

/-- The four kinds of steps of `download` as the local files see them: a step
that is no part of a copy, the creation of the file, a read, and a write. -/
theorem move_effect (w : Worker) (i : Nat) (closed : Bool) (count : Nat) (ok : Bool)
    (r : ReadResult) (m : Move) (h : w.downloadStep i closed count ok r = some m) :
    ((∀ e, m.event = some e → e.copies = false) ∧
      (∀ key, m.worker.pc ≠ WorkerPc.read key) ∧
      (∀ key, m.worker.pc ≠ WorkerPc.closeFile key) ∧
      (∀ key chunk, m.worker.pc ≠ WorkerPc.write key chunk) ∧
      (m.worker.completed = w.completed ∨
        ∃ k, w.pc = WorkerPc.closeFile k ∧ m.event = some (Event.closeFile i k) ∧
          m.worker.completed = w.completed ++ [k])) ∨
    (∃ k, w.pc = WorkerPc.create k ∧ m.event = some (Event.create i k true) ∧
      m.worker.pc = WorkerPc.read k ∧ m.worker.completed = w.completed) ∨
    (∃ k, w.pc = WorkerPc.read k ∧ m.event = some (Event.read i k r) ∧
      m.worker.completed = w.completed ∧
      ((m.worker.pc = WorkerPc.closeFile k ∧ r.chunk = []) ∨
        m.worker.pc = WorkerPc.write k r.chunk ∨ m.worker.panicking = true)) ∨
    (∃ k c, w.pc = WorkerPc.write k c ∧ m.event = some (Event.write i k c true) ∧
      m.worker.pc = WorkerPc.read k ∧ m.worker.completed = w.completed) := by
  unfold Worker.downloadStep at h
  split at h
  · split at h
    · simp only [Option.some.injEq] at h; subst h
      left; simp
    · cases h
  · simp only [Option.some.injEq] at h; subst h
    left; simp
  · rename_i key hpc
    split at h <;> simp only [Option.some.injEq] at h <;> subst h <;> left <;>
      simp [Event.copies, hpc]
  · rename_i key hpc
    split at h <;> simp only [Option.some.injEq] at h <;> subst h <;> left <;>
      simp [Event.copies, hpc]
  · rename_i key hpc
    split at h
    · simp only [Option.some.injEq] at h; subst h
      right; left
      rename_i hok
      exact ⟨key, hpc, rfl, rfl, rfl⟩
    · simp only [Option.some.injEq] at h; subst h
      left
      simp [Event.copies, hpc]
  · rename_i key hpc
    right; right; left
    split at h
    · simp only [Option.some.injEq] at h; subst h
      exact ⟨key, hpc, rfl, rfl, Or.inr (Or.inr rfl)⟩
    · rename_i hstop
      simp only [Option.some.injEq] at h; subst h
      refine ⟨key, hpc, rfl, rfl, Or.inl ⟨rfl, ?_⟩⟩
      unfold afterRead at hstop
      split at hstop
      · cases hstop
      · split at hstop
        · rename_i hlen
          exact List.length_eq_zero.mp hlen
        · split at hstop <;> cases hstop
    · rename_i chunk hwrite
      simp only [Option.some.injEq] at h; subst h
      have := (afterRead_write_bounds r chunk hwrite).1
      subst this
      exact ⟨key, hpc, rfl, rfl, Or.inr (Or.inl rfl)⟩
  · rename_i key chunk hpc
    split at h
    · simp only [Option.some.injEq] at h; subst h
      right; right; right
      rename_i hok
      exact ⟨key, chunk, hpc, rfl, rfl, rfl⟩
    · simp only [Option.some.injEq] at h; subst h
      left
      simp [Event.copies, hpc]
  · rename_i key hpc
    simp only [Option.some.injEq] at h; subst h
    left
    simp [Event.copies, hpc]
  · split at h <;> (try split at h) <;> simp only [Option.some.injEq] at h <;> subst h <;>
      left <;> simp_all [Event.copies]
  · split at h <;> (try split at h) <;> simp only [Option.some.injEq] at h <;> subst h <;>
      left <;> simp_all [Event.copies]
  · cases h

theorem flatten_nodup_index {α : Type} (ls : List (List α)) (h : ls.flatten.Nodup) :
    ∀ (i j : Nat) (a b : List α), ls[i]? = some a → ls[j]? = some b → i ≠ j →
      ∀ x ∈ a, x ∉ b := by
  rw [List.nodup_flatten] at h
  obtain ⟨_, hpair⟩ := h
  rw [List.pairwise_iff_getElem] at hpair
  intro i j a b hi hj hne x hxa hxb
  obtain ⟨hil, hia⟩ := List.getElem?_eq_some_iff.mp hi
  obtain ⟨hjl, hjb⟩ := List.getElem?_eq_some_iff.mp hj
  rcases Nat.lt_or_gt_of_ne hne with hlt | hgt
  · have := hpair i j hil hjl hlt
    rw [hia, hjb] at this
    exact this hxa hxb
  · have := hpair j i hjl hil hgt
    rw [hia, hjb] at this
    exact this hxb hxa

theorem flatten_nodup_self {α : Type} (ls : List (List α)) (h : ls.flatten.Nodup)
    (i : Nat) (a : List α) (hi : ls[i]? = some a) : a.Nodup := by
  rw [List.nodup_flatten] at h
  exact h.1 a (List.getElem?_mem hi)

theorem received_map_fileId (s : State) :
    s.received.map fileId = (s.workers.map (fun w => w.received.map fileId)).flatten := by
  simp [State.received, List.map_flatten, List.map_map, Function.comp_def]

/-- Keys received by different goroutines name different files, when the keys
sent name different files. -/
theorem received_fileId_ne (s : State) (hnd : (s.received.map fileId).Nodup)
    (i j : Nat) (wi wj : Worker) (hi : s.workers[i]? = some wi) (hj : s.workers[j]? = some wj)
    (hne : i ≠ j) : ∀ a ∈ wi.received, ∀ b ∈ wj.received, fileId a ≠ fileId b := by
  rw [received_map_fileId] at hnd
  intro a ha b hb heq
  have h1 : (s.workers.map (fun w => w.received.map fileId))[i]? =
      some (wi.received.map fileId) := by simp [hi]
  have h2 : (s.workers.map (fun w => w.received.map fileId))[j]? =
      some (wj.received.map fileId) := by simp [hj]
  exact flatten_nodup_index _ hnd i j _ _ h1 h2 hne (fileId a)
    (List.mem_map_of_mem _ ha) (heq ▸ List.mem_map_of_mem _ hb)

theorem received_fileId_nodup (s : State) (hnd : (s.received.map fileId).Nodup)
    (i : Nat) (w : Worker) (hi : s.workers[i]? = some w) : (w.received.map fileId).Nodup := by
  rw [received_map_fileId] at hnd
  exact flatten_nodup_self _ hnd i _ (by simp [hi])

/-- The key a goroutine is working on names another file than the keys it has
completed. -/
theorem completed_fileId_ne (w : Worker) (k : Key) (hnd : (w.received.map fileId).Nodup)
    (hrec : w.received = w.completed ++ [k]) : ∀ key ∈ w.completed, fileId key ≠ fileId k := by
  rw [hrec, List.map_append, List.nodup_append] at hnd
  intro key hkey heq
  exact hnd.2.2 (List.mem_map_of_mem _ hkey) (by simp [heq])

/-- What the files hold for a goroutine is kept by an event that leaves alone
the files of its keys, its handle and its reads. -/
theorem workerDisk_frame (content : Key → List Byte) (d d2 : Disk) (events events2 : List Event)
    (i : Nat) (w : Worker) (hrec : w.received = w.completed ++ w.pc.current)
    (hfiles : ∀ key ∈ w.received, d2.files (fileId key) = d.files (fileId key))
    (hoff : d2.offset i = d.offset i) (hreads : taskReads i events2 = taskReads i events)
    (h : WorkerDisk content d events i w) : WorkerDisk content d2 events2 i w := by
  obtain ⟨hA, hB, hC⟩ := h
  refine ⟨?_, ?_, ?_⟩
  · intro key hpc
    have hmem : key ∈ w.received := by
      rw [hrec]
      rcases hpc with hpc | hpc <;> simp [hpc, WorkerPc.current]
    rw [hfiles key hmem, hoff, hreads]
    exact hA key hpc
  · intro key chunk hpc
    have hmem : key ∈ w.received := by
      rw [hrec]
      simp [hpc, WorkerPc.current]
    rw [hfiles key hmem, hoff, hreads]
    exact hB key chunk hpc
  · intro key hkey
    have hmem : key ∈ w.received := by
      rw [hrec]
      exact List.mem_append_left _ hkey
    rw [hfiles key hmem]
    exact hC key hkey

theorem step_sent_events (cfg : Config) (s s2 : State) (a : Action)
    (h : step cfg s a = some s2) :
    (∃ t, s2.sent = s.sent ++ t) ∧ (∃ t, s2.events = s.events ++ t) := by
  have hev : ∃ t, s2.events = s.events ++ t := by
    rcases step_events cfg s s2 a h with he | ⟨e, he, _⟩
    · exact ⟨[], by simp [he]⟩
    · exact ⟨[e], he⟩
  refine ⟨?_, hev⟩
  unfold step at h
  split at h
  · cases h
  · cases a with
    | main ok => exact ⟨[], by simp [(mainStep_frame cfg s s2 ok h).1]⟩
    | handoff i =>
      obtain ⟨key, _, _, _, _, _, _, rfl⟩ := stepHandoff_spec s s2 i h
      exact ⟨[key], rfl⟩
    | worker i ok r => exact ⟨[], by simp [(stepWorker_frame s s2 i ok r h).2.1]⟩

theorem mainStep_quiet (cfg : Config) (s s2 : State) (ok : Bool)
    (h : mainStep cfg s ok = some s2) (fs : FileSystem) :
    diskAfter fs s2.events = diskAfter fs s.events ∧
    ∀ i, taskReads i s2.events = taskReads i s.events := by
  have hq : s2.events = s.events ∨ ∃ e, s2.events = s.events ++ [e] ∧ e.copies = false := by
    simp only [mainStep] at h
    split at h <;> (try split at h) <;>
      simp only [Option.some.injEq, reduceCtorEq] at h <;> subst h <;>
      simp [State.log, State.exit, Event.copies]
  rcases hq with hq | ⟨e, he, hc⟩
  · rw [hq]
    exact ⟨rfl, fun _ => rfl⟩
  · rw [he]
    exact ⟨diskAfter_quiet fs _ (some e) (fun x hx => by cases hx; exact hc),
      fun i => taskReads_quiet i _ (some e) (fun x hx => by cases hx; exact hc)⟩

theorem getElem?_set_cases {α : Type} (ws : List α) (j i : Nat) (x w : α)
    (h : (ws.set j x)[i]? = some w) : (j = i ∧ w = x) ∨ (j ≠ i ∧ ws[i]? = some w) := by
  by_cases hji : j = i
  · subst hji
    left
    rw [List.getElem?_set_self'] at h
    cases hws : ws[j]? with
    | none => simp [hws] at h
    | some y =>
      simp [hws] at h
      exact ⟨rfl, h.symm⟩
  · right
    rw [List.getElem?_set_ne hji] at h
    exact ⟨hji, h⟩

theorem diskAfter_snoc (fs : FileSystem) (events : List Event) (e : Event) :
    diskAfter fs (events ++ [e]) = (diskAfter fs events).apply e := by
  simp [diskAfter, List.foldl_append]

theorem taskReads_snoc (i : Nat) (events : List Event) (e : Event) :
    taskReads i (events ++ [e]) = readsApply i (taskReads i events) e := by
  simp [taskReads, List.foldl_append]

theorem workerDisk_fresh (content : Key → List Byte) (d : Disk) (events : List Event)
    (i : Nat) : WorkerDisk content d events i Worker.fresh :=
  ⟨fun key h => by rcases h with h | h <;> simp [Worker.fresh] at h,
   fun key chunk h => by simp [Worker.fresh] at h,
   fun key h => by simp [Worker.fresh] at h⟩

/-- What the local files hold, goroutine by goroutine, in every state of a run
whose keys name different files and whose downloads read their objects to the
end. -/
theorem disk_invariant (cfg : Config) (content : Key → List Byte) (fs : FileSystem)
    (s : State) (hr : Reachable cfg s) :
    (s.sent.map fileId).Nodup → DeliversAll content s.events →
    ∀ i w, s.workers[i]? = some w →
      WorkerDisk content (diskAfter fs s.events) s.events i w := by
  induction hr with
  | init => intro _ _ i w hw; simp [init] at hw
  | step s s2 a hr1 hstep ih =>
    intro hnd2 hdel2
    obtain ⟨⟨ts, hts⟩, ⟨te, hte⟩⟩ := step_sent_events cfg s s2 a hstep
    have hnd : (s.sent.map fileId).Nodup := by
      rw [hts, List.map_append] at hnd2
      exact (List.nodup_append.mp hnd2).1
    have hdel : DeliversAll content s.events := by
      rw [hte] at hdel2
      exact deliversAll_prefix content _ _ hdel2
    have ih2 := ih hnd hdel
    have hrecN : (s.received.map fileId).Nodup :=
      ((received_perm_sent cfg s hr1).map fileId).nodup_iff.mpr hnd
    have hcomp := completed_invariant cfg s hr1
    unfold step at hstep
    split at hstep
    · cases hstep
    · cases a with
      | main ok =>
        obtain ⟨hd, hreads⟩ := mainStep_quiet cfg s s2 ok hstep fs
        intro i w hw
        rw [hd]
        have hold : ∀ w0, s.workers[i]? = some w0 →
            WorkerDisk content (diskAfter fs s.events) s2.events i w0 := fun w0 h0 =>
          workerDisk_frame content _ _ s.events s2.events i w0
            (hcomp w0 (List.getElem?_mem h0)) (fun _ _ => rfl) rfl (hreads i) (ih2 i w0 h0)
        rcases (mainStep_frame cfg s s2 ok hstep).2 with hws | hws
        · rw [hws] at hw
          exact hold w hw
        · rw [hws] at hw
          by_cases hlt : i < s.workers.length
          · rw [List.getElem?_append_left hlt] at hw
            exact hold w hw
          · rw [List.getElem?_append_right (Nat.le_of_not_lt hlt)] at hw
            rw [List.mem_singleton.mp (List.getElem?_mem hw)]
            exact workerDisk_fresh content _ _ i
      | handoff j =>
        obtain ⟨key, rest, wj, _, hwj, hrecv, _, rfl⟩ := stepHandoff_spec s s2 j hstep
        intro i w hw
        have hw2 : (s.workers.set j (Worker.mk (WorkerPc.add key) wj.deferred wj.openBodies
            wj.openFiles (wj.received ++ [key]) wj.completed))[i]? = some w := hw
        have hq : ∀ e, (some (Event.send key j) : Option Event) = some e → e.copies = false := by
          intro e he; cases he; rfl
        have hd : diskAfter fs (s.events ++ [Event.send key j]) = diskAfter fs s.events :=
          diskAfter_quiet fs s.events (some (Event.send key j)) hq
        have hreads : taskReads i (s.events ++ [Event.send key j]) = taskReads i s.events :=
          taskReads_quiet i s.events (some (Event.send key j)) hq
        show WorkerDisk content (diskAfter fs (s.events ++ [Event.send key j]))
          (s.events ++ [Event.send key j]) i w
        rw [hd]
        rcases getElem?_set_cases _ _ _ _ _ hw2 with ⟨hji, hwx⟩ | ⟨hji, hwi⟩
        · subst hji hwx
          obtain ⟨_, _, hC⟩ := ih2 j wj hwj
          exact ⟨fun k h => by rcases h with h | h <;> simp at h,
            fun k c h => by simp at h, hC⟩
        · exact workerDisk_frame content _ _ s.events _ i w
            (hcomp w (List.getElem?_mem hwi)) (fun _ _ => rfl) rfl hreads (ih2 i w hwi)
      | worker j ok r =>
        obtain ⟨wj, m, hwj, hmove, rfl⟩ := stepWorker_spec s s2 j ok r hstep
        intro i w hw
        have hw2 : (s.workers.set j m.worker)[i]? = some w := hw
        have hdel3 : DeliversAll content (s.events ++ m.event.toList) := hdel2
        show WorkerDisk content (diskAfter fs (s.events ++ m.event.toList))
          (s.events ++ m.event.toList) i w
        have hrecj := hcomp wj (List.getElem?_mem hwj)
        have hndj := received_fileId_nodup s hrecN j wj hwj
        obtain ⟨hA, hB, hC⟩ := ih2 j wj hwj
        rcases move_effect wj j s.closed s.wgCount ok r m hmove with
          ⟨hq, hnr, hnc, hnw, hcompl⟩ | ⟨k, hpc, hev, hpc2, hcompl⟩ |
          ⟨k, hpc, hev, hcompl, hnext⟩ | ⟨k, c, hpc, hev, hpc2, hcompl⟩
        · -- a step that is no part of a copy
          rw [diskAfter_quiet fs _ _ hq]
          have hreads := taskReads_quiet i s.events m.event hq
          rcases getElem?_set_cases _ _ _ _ _ hw2 with ⟨hji, hwx⟩ | ⟨hji, hwi⟩
          · subst hji hwx
            refine ⟨fun key h => ?_, fun key chunk h => absurd h (hnw key chunk), ?_⟩
            · rcases h with h | h
              · exact absurd h (hnr key)
              · exact absurd h (hnc key)
            · rcases hcompl with hc | ⟨k, hpc, hev, hc⟩
              · rw [hc]; exact hC
              · rw [hc]
                intro key hkey
                rcases List.mem_append.mp hkey with hkey | hkey
                · exact hC key hkey
                · rw [List.mem_singleton.mp hkey]
                  rw [hev] at hdel3
                  rw [(hA k (Or.inr hpc)).1, deliversAll_closeFile content s.events j k hdel3]
          · exact workerDisk_frame content _ _ s.events _ i w
              (hcomp w (List.getElem?_mem hwi)) (fun _ _ => rfl) rfl hreads (ih2 i w hwi)
        · -- the creation of the file
          have hk : wj.received = wj.completed ++ [k] := by
            rw [hrecj, hpc]; rfl
          rw [hev]
          show WorkerDisk content (diskAfter fs (s.events ++ [_])) (s.events ++ [_]) i w
          rw [diskAfter_snoc]
          rcases getElem?_set_cases _ _ _ _ _ hw2 with ⟨hji, hwx⟩ | ⟨hji, hwi⟩
          · subst hji hwx
            refine ⟨fun key h => ?_, fun key chunk h => ?_, ?_⟩
            · rcases h with h | h
              · rw [hpc2] at h
                cases h
                simp [Disk.apply, taskReads_snoc, readsApply, setFile]
              · rw [hpc2] at h; cases h
            · rw [hpc2] at h; cases h
            · rw [hcompl]
              intro key hkey
              have hne := completed_fileId_ne wj k hndj hk key hkey
              simp only [Disk.apply, setFile, hne, if_false]
              exact hC key hkey
          · refine workerDisk_frame content (diskAfter fs s.events) _ s.events _ i w
              (hcomp w (List.getElem?_mem hwi)) (fun key hkey => ?_) ?_ ?_ (ih2 i w hwi)
            · have hne := received_fileId_ne s hrecN i j w wj hwi hwj (Ne.symm hji) key hkey k
                (by rw [hk]; simp)
              simp [Disk.apply, setFile, hne]
            · simp [Disk.apply, Ne.symm hji]
            · simp [taskReads_snoc, readsApply, hji]
        · -- a read
          rw [hev]
          show WorkerDisk content (diskAfter fs (s.events ++ [_])) (s.events ++ [_]) i w
          rw [diskAfter_snoc]
          rcases getElem?_set_cases _ _ _ _ _ hw2 with ⟨hji, hwx⟩ | ⟨hji, hwi⟩
          · subst hji hwx
            obtain ⟨hf, ho⟩ := hA k (Or.inl hpc)
            refine ⟨fun key h => ?_, fun key chunk h => ?_, ?_⟩
            · rcases hnext with ⟨hn, hr0⟩ | hn | hn
              · rw [hn] at h
                rcases h with h | h
                · cases h
                · cases h
                  simp [Disk.apply, taskReads_snoc, readsApply, hr0, hf, ho]
              · rw [hn] at h
                rcases h with h | h <;> cases h
              · exfalso
                rcases h with h | h <;> simp [Worker.panicking, h] at hn
            · rcases hnext with ⟨hn, _⟩ | hn | hn
              · rw [hn] at h; cases h
              · rw [hn] at h
                cases h
                exact ⟨taskReads j s.events, by simp [taskReads_snoc, readsApply],
                  by simp [Disk.apply, hf],
                  by simp [Disk.apply, ho]⟩
              · exfalso
                simp [Worker.panicking, h] at hn
            · rw [hcompl]
              exact hC
          · refine workerDisk_frame content (diskAfter fs s.events) _ s.events _ i w
              (hcomp w (List.getElem?_mem hwi)) (fun key hkey => ?_) ?_ ?_ (ih2 i w hwi)
            · simp [Disk.apply]
            · simp [Disk.apply]
            · simp [taskReads_snoc, readsApply, hji]
        · -- a write
          have hk : wj.received = wj.completed ++ [k] := by
            rw [hrecj, hpc]; rfl
          rw [hev]
          show WorkerDisk content (diskAfter fs (s.events ++ [_])) (s.events ++ [_]) i w
          rw [diskAfter_snoc]
          rcases getElem?_set_cases _ _ _ _ _ hw2 with ⟨hji, hwx⟩ | ⟨hji, hwi⟩
          · subst hji hwx
            obtain ⟨pre, hreads, hf, ho⟩ := hB k c hpc
            refine ⟨fun key h => ?_, fun key chunk h => ?_, ?_⟩
            · rcases h with h | h
              · rw [hpc2] at h
                cases h
                simp [Disk.apply, taskReads_snoc, readsApply, setFile, hf, ho, hreads,
                  writeAt_end]
              · rw [hpc2] at h; cases h
            · rw [hpc2] at h; cases h
            · rw [hcompl]
              intro key hkey
              have hne := completed_fileId_ne wj k hndj hk key hkey
              simp only [Disk.apply, setFile, hne, if_false]
              exact hC key hkey
          · refine workerDisk_frame content (diskAfter fs s.events) _ s.events _ i w
              (hcomp w (List.getElem?_mem hwi)) (fun key hkey => ?_) ?_ ?_ (ih2 i w hwi)
            · have hne := received_fileId_ne s hrecN i j w wj hwi hwj (Ne.symm hji) key hkey k
                (by rw [hk]; simp)
              simp [Disk.apply, setFile, hne]
            · simp [Disk.apply, Ne.symm hji]
            · simp [taskReads_snoc, readsApply]

theorem touched_of_not_copies (e : Event) (h : e.copies = false) : e.touched = none := by
  cases e <;> first | rfl | (rename_i ok; cases ok <;> first | rfl | simp [Event.copies] at h)

/-- A file that no event creates or writes is left as it was. -/
theorem files_untouched (p : String) (events : List Event) :
    ∀ d : Disk, (∀ e ∈ events, ∀ q, e.touched = some q → fileId q ≠ p) →
      (events.foldl Disk.apply d).files p = d.files p := by
  induction events with
  | nil => intro d _; rfl
  | cons e rest ih =>
    intro d h
    rw [List.foldl_cons, ih (d.apply e) (fun x hx => h x (List.mem_cons_of_mem _ hx))]
    have he := h e (List.mem_cons_self _ _)
    cases e with
    | create i path ok =>
      cases ok with
      | false => rfl
      | true =>
        have hne := he path rfl
        simp [Disk.apply, setFile, Ne.symm hne]
    | write i path chunk ok =>
      cases ok with
      | false => rfl
      | true =>
        have hne := he path rfl
        simp [Disk.apply, setFile, Ne.symm hne]
    | _ => rfl

theorem mem_received_of_worker (s : State) (i : Nat) (w : Worker) (hw : s.workers[i]? = some w)
    (k : Key) (hk : k ∈ w.received) : k ∈ s.received := by
  unfold State.received
  rw [List.mem_flatten]
  exact ⟨w.received, List.mem_map_of_mem _ (List.getElem?_mem hw), hk⟩

/-- Every file a run creates or writes is the file of a key that was sent on
the channel. -/
theorem touched_invariant (cfg : Config) (s : State) (hr : Reachable cfg s) :
    ∀ e ∈ s.events, ∀ q, e.touched = some q → q ∈ s.sent := by
  induction hr with
  | init => simp [init]
  | step s s2 a hr1 hstep ih =>
    obtain ⟨⟨ts, hts⟩, _⟩ := step_sent_events cfg s s2 a hstep
    have hold : ∀ e ∈ s.events, ∀ q, e.touched = some q → q ∈ s2.sent := by
      intro e he q hq
      rw [hts]
      exact List.mem_append_left _ (ih e he q hq)
    have hquiet : ∀ x, x.copies = false → s2.events = s.events ++ [x] →
        ∀ e ∈ s2.events, ∀ q, e.touched = some q → q ∈ s2.sent := by
      intro x hx hev e he q hq
      rw [hev] at he
      rcases List.mem_append.mp he with he | he
      · exact hold e he q hq
      · rw [List.mem_singleton.mp he, touched_of_not_copies x hx] at hq
        cases hq
    have hperm := received_perm_sent cfg s hr1
    have hcomp := completed_invariant cfg s hr1
    unfold step at hstep
    split at hstep
    · cases hstep
    · cases a with
      | main ok =>
        have hq : s2.events = s.events ∨
            ∃ e, s2.events = s.events ++ [e] ∧ e.copies = false := by
          simp only [mainStep] at hstep
          split at hstep <;> (try split at hstep) <;>
            simp only [Option.some.injEq, reduceCtorEq] at hstep <;> subst hstep <;>
            simp [State.log, State.exit, Event.copies]
        rcases hq with hq | ⟨x, hev, hx⟩
        · rw [hq]; exact hold
        · exact hquiet x hx hev
      | handoff j =>
        obtain ⟨key, rest, wj, _, hwj, hrecv, _, rfl⟩ := stepHandoff_spec s s2 j hstep
        exact hquiet (Event.send key j) rfl rfl
      | worker j ok r =>
        obtain ⟨wj, m, hwj, hmove, rfl⟩ := stepWorker_spec s s2 j ok r hstep
        have hrecj := hcomp wj (List.getElem?_mem hwj)
        have hkey : ∀ k, k ∈ wj.pc.current → k ∈ s.sent := fun k hk =>
          hperm.subset (mem_received_of_worker s j wj hwj k
            (by rw [hrecj]; exact List.mem_append_right _ hk))
        have hone : ∀ x k, m.event = some x → (∀ q, x.touched = some q → q = k) →
            k ∈ wj.pc.current →
            ∀ e ∈ s.events ++ m.event.toList, ∀ q, e.touched = some q → q ∈ s.sent := by
          intro x k hev hx hk e he q hq
          rw [hev] at he
          rcases List.mem_append.mp he with he | he
          · exact ih e he q hq
          · have hex : e = x := by simpa using he
            rw [hex] at hq
            rw [hx q hq]
            exact hkey k hk
        rcases move_effect wj j s.closed s.wgCount ok r m hmove with
          ⟨hquiet2, _⟩ | ⟨k, hpc, hev, _⟩ | ⟨k, hpc, hev, _⟩ | ⟨k, c, hpc, hev, _⟩
        · intro e he q hq
          have he2 : e ∈ s.events ++ m.event.toList := he
          rcases List.mem_append.mp he2 with he3 | he3
          · exact ih e he3 q hq
          · rw [touched_of_not_copies e (hquiet2 e (by simpa using he3))] at hq
            cases hq
        · exact hone _ k hev (fun q hq => by cases hq; rfl) (by simp [hpc, WorkerPc.current])
        · exact hone _ k hev (fun q hq => by cases hq) (by simp [hpc, WorkerPc.current])
        · exact hone _ k hev (fun q hq => by cases hq; rfl) (by simp [hpc, WorkerPc.current])

/-- The process ends with status 0 only at the return of `main`. -/
theorem exit_zero_done (cfg : Config) (s : State) (hr : Reachable cfg s)
    (h0 : s.status = some 0) : s.mainPc = MainPc.done := by
  cases hr with
  | init => simp [init] at h0
  | step s1 _ a hr1 h =>
    have hnone := step_status_none cfg s1 s a h
    unfold step at h
    split at h
    · cases h
    · cases a with
      | main ok =>
        simp only [mainStep] at h
        split at h <;> (try split at h) <;>
          simp only [Option.some.injEq, reduceCtorEq] at h <;> subst h <;>
          simp_all [State.log, State.exit]
      | handoff i =>
        obtain ⟨_, _, _, _, _, _, _, rfl⟩ := stepHandoff_spec s1 s i h
        simp [hnone] at h0
      | worker i ok r =>
        obtain ⟨w, m, hw, hm, rfl⟩ := stepWorker_spec s1 s i ok r h
        exfalso
        simp only at h0
        unfold Worker.downloadStep at hm
        split at hm <;> (try split at hm) <;> (try split at hm) <;>
          simp only [Option.some.injEq, reduceCtorEq] at hm <;> subst hm <;>
          simp at h0

/-- A run that exits 0 on a listing without a failed page has sent every listed
key, in order. -/
theorem sent_of_exit_zero (cfg : Config) (hl : ∀ page ∈ cfg.listing, page ≠ none)
    (s : State) (hr : Reachable cfg s) (h0 : s.status = some 0) :
    s.sent = listedKeys cfg.listing := by
  have hdone := exit_zero_done cfg s hr h0
  obtain ⟨h1, _, h3⟩ := listing_invariant cfg hl s hr
  rw [hdone] at h1 h3
  rw [h3 rfl] at h1
  simpa [MainPc.pending, listedKeys] using h1

/-- The file of every key a goroutine has downloaded to the end holds the
content of the key. -/
theorem files_of_completed (cfg : Config) (content : Key → List Byte) (fs : FileSystem)
    (s : State) (hr : Reachable cfg s) (hnd : (s.sent.map fileId).Nodup)
    (hdel : DeliversAll content s.events) :
    ∀ key ∈ s.completed, filesAfter fs s.events (fileId key) = some (content key) := by
  intro key hkey
  unfold State.completed at hkey
  rw [List.mem_flatten] at hkey
  obtain ⟨l, hl, hkl⟩ := hkey
  obtain ⟨w, hw, rfl⟩ := List.mem_map.mp hl
  obtain ⟨i, hi⟩ := List.getElem?_of_mem hw
  exact (disk_invariant cfg content fs s hr hnd hdel i w hi).2.2 key hkl

/-- The files after a run that exits 0 with every key downloaded to the end:
the file of each listed key holds its content and every other file is as
before. -/
theorem files_after_run (cfg : Config) (content : Key → List Byte) (fs : FileSystem)
    (s : State) (hl : ∀ page ∈ cfg.listing, page ≠ none)
    (hd : ((listedKeys cfg.listing).map fileId).Nodup)
    (hr : Reachable cfg s) (h0 : s.status = some 0) (hc : s.completed.Perm s.sent)
    (hdel : DeliversAll content s.events) :
    (∀ key ∈ listedKeys cfg.listing,
      filesAfter fs s.events (fileId key) = some (content key)) ∧
    (∀ p, (∀ key ∈ listedKeys cfg.listing, fileId key ≠ p) →
      filesAfter fs s.events p = fs p) := by
  have hsent := sent_of_exit_zero cfg hl s hr h0
  refine ⟨fun key hkey => ?_, fun p hp => ?_⟩
  · exact files_of_completed cfg content fs s hr (by rw [hsent]; exact hd) hdel key
      (hc.symm.subset (by rw [hsent]; exact hkey))
  · exact files_untouched p s.events ⟨fs, fun _ => 0⟩ (fun e he q hq =>
      hp q (by rw [← hsent]; exact touched_invariant cfg s hr e he q hq))

/-- C9, as stated, fails when two keys of the bucket name one local file: the
keys "a/b" and "a//b" are both created at the file "b" of the directory "a".
Both runs below exit 0 with both keys downloaded to the end and every byte of
the two objects read, on an unchanged bucket, yet the file holds the content of
"a//b" after the first run and the content of "a/b" after the second, because
the workers finish in the other order. -/
theorem C9_counterexample :
    ¬ (∀ (cfg : Config) (content : Key → List Byte) (fs0 : FileSystem) (s1 s2 : State),
        (∀ page ∈ cfg.listing, page ≠ none) →
        Reachable cfg s1 → Reachable cfg s2 →
        s1.status = some 0 → s2.status = some 0 →
        s1.completed.Perm s1.sent → s2.completed.Perm s2.sent →
        DeliversAll content s1.events → DeliversAll content s2.events →
        filesAfter (filesAfter fs0 s1.events) s2.events = filesAfter fs0 s1.events) ∧
    (runActions collideCfg (init collideCfg) collideRun1 = some collideState1 ∧
      runActions collideCfg (init collideCfg) collideRun2 = some collideState2 ∧
      filesAfter emptyFs collideState1.events "a/b" = some [2] ∧
      filesAfter (filesAfter emptyFs collideState1.events) collideState2.events "a/b"
        = some [1]) := by
  have hr1 : runActions collideCfg (init collideCfg) collideRun1 = some collideState1 := by
    set_option maxRecDepth 100000 in decide
  have hr2 : runActions collideCfg (init collideCfg) collideRun2 = some collideState2 := by
    set_option maxRecDepth 100000 in decide
  have hf1 : filesAfter emptyFs collideState1.events "a/b" = some [2] := by
    set_option maxRecDepth 100000 in decide
  have hf2 : filesAfter (filesAfter emptyFs collideState1.events) collideState2.events "a/b"
      = some [1] := by
    set_option maxRecDepth 100000 in decide
  refine ⟨?_, hr1, hr2, hf1, hf2⟩
  intro h
  have h2 := h collideCfg collideContent emptyFs collideState1 collideState2 (by decide)
    (reachable_of_runActions collideCfg collideRun1 _ _ Reachable.init hr1)
    (reachable_of_runActions collideCfg collideRun2 _ _ Reachable.init hr2)
    (by set_option maxRecDepth 100000 in decide)
    (by set_option maxRecDepth 100000 in decide)
    (List.Perm.of_eq (by set_option maxRecDepth 100000 in decide))
    (List.Perm.of_eq (by set_option maxRecDepth 100000 in decide))
    (by unfold DeliversAll; set_option maxRecDepth 100000 in decide)
    (by unfold DeliversAll; set_option maxRecDepth 100000 in decide)
  have h3 := congrFun h2 "a/b"
  rw [hf1, hf2] at h3
  revert h3
  decide

/-- C9, amended: idempotence.  The local files are a map from the file a path
names to its bytes, the bucket holds `content key` under each key, and a run is
any interleaving of `main` and the workers.  Take a listing without a failed
page whose keys name pairwise different files, any initial files `fs0`, and two
runs on the same bucket that both exit with status 0 with every key that was
sent downloaded to the close of its file, and in which the bytes read from a
body when its file is closed are the content of the object.  Then the files
after the second run, started on the files the first run left, are the files
after the first run: the file of every listed key holds exactly the content of
the key, whatever it held before, and every other file is as it was in `fs0`. -/
theorem C9_idempotence (cfg : Config) (content : Key → List Byte) (fs0 : FileSystem)
    (s1 s2 : State) (hl : ∀ page ∈ cfg.listing, page ≠ none)
    (hd : ((listedKeys cfg.listing).map fileId).Nodup)
    (h1 : Reachable cfg s1) (h2 : Reachable cfg s2)
    (e1 : s1.status = some 0) (e2 : s2.status = some 0)
    (c1 : s1.completed.Perm s1.sent) (c2 : s2.completed.Perm s2.sent)
    (d1 : DeliversAll content s1.events) (d2 : DeliversAll content s2.events) :
    filesAfter (filesAfter fs0 s1.events) s2.events = filesAfter fs0 s1.events ∧
    (∀ key ∈ listedKeys cfg.listing,
      filesAfter fs0 s1.events (fileId key) = some (content key)) ∧
    (∀ p, (∀ key ∈ listedKeys cfg.listing, fileId key ≠ p) →
      filesAfter fs0 s1.events p = fs0 p) := by
  obtain ⟨ha1, hb1⟩ := files_after_run cfg content fs0 s1 hl hd h1 e1 c1 d1
  obtain ⟨ha2, hb2⟩ :=
    files_after_run cfg content (filesAfter fs0 s1.events) s2 hl hd h2 e2 c2 d2
  refine ⟨?_, ha1, hb1⟩
  funext p
  by_cases hp : ∃ key ∈ listedKeys cfg.listing, fileId key = p
  · obtain ⟨key, hkey, rfl⟩ := hp
    rw [ha2 key hkey, ha1 key hkey]
  · exact hb2 p (fun key hkey heq => hp ⟨key, hkey, heq⟩)

theorem C9_idempotence_witness :
    (runActions pairCfg (init pairCfg) collideRun1 = some pairState1 ∧
      runActions pairCfg (init pairCfg) collideRun2 = some pairState2 ∧
      pairState1.status = some 0 ∧ pairState2.status = some 0) ∧
    filesAfter (filesAfter staleFs pairState1.events) pairState2.events
      = filesAfter staleFs pairState1.events ∧
    filesAfter staleFs pairState1.events "x.txt" = some [1] ∧
    filesAfter staleFs pairState1.events "a/b" = some [2] ∧
    filesAfter staleFs pairState1.events "keep.txt" = some [42] := by
  have hr1 : runActions pairCfg (init pairCfg) collideRun1 = some pairState1 := by
    set_option maxRecDepth 100000 in decide
  have hr2 : runActions pairCfg (init pairCfg) collideRun2 = some pairState2 := by
    set_option maxRecDepth 100000 in decide
  have he1 : pairState1.status = some 0 := by
    set_option maxRecDepth 100000 in decide
  have he2 : pairState2.status = some 0 := by
    set_option maxRecDepth 100000 in decide
  have h := C9_idempotence pairCfg pairContent staleFs pairState1 pairState2 (by decide)
    (by decide)
    (reachable_of_runActions pairCfg collideRun1 _ _ Reachable.init hr1)
    (reachable_of_runActions pairCfg collideRun2 _ _ Reachable.init hr2)
    he1 he2
    (List.Perm.of_eq (by set_option maxRecDepth 100000 in decide))
    (List.Perm.of_eq (by set_option maxRecDepth 100000 in decide))
    (by unfold DeliversAll; set_option maxRecDepth 100000 in decide)
    (by unfold DeliversAll; set_option maxRecDepth 100000 in decide)
  exact ⟨⟨hr1, hr2, he1, he2⟩, h.1, h.2.1 "x.txt" (by decide), h.2.1 "a/b" (by decide),
    h.2.2 "keep.txt" (by decide)⟩

end S3dl
